import Mathlib

/-!
Verification development for a concurrent IDR (IDentifier Resolver).

The definitions below are a shallow embedding of the library's core:
the key codec (`key.rs`), the slot state machine (`slot.rs`), the paged
storage with its Treiber-style free list (`page.rs`), the page controller
(`control.rs`) and the facade operations (`lib.rs`, `handles.rs`).
Machine integers (`u32`, `u64`) are modelled as `Nat` with explicit
`% 2^32` / `% 2^64` truncation where the Rust code can overflow or wrap;
nullable pointers become `Option`; the sequential semantics of the
lock-free operations is obtained by letting every compare-exchange
observe the current state (single-mutator execution), while the
two-remover scenario is modelled separately as an explicit interleaving
of the atomic steps of `Slot::uninit`.
-/

/-- The `u32::MAX` sentinel used by the free list to mean "no next slot". -/
def U32MAX : Nat := 4294967295

/-- Fuel-bounded helper for `trailing_zeros` on a 32-bit value. -/
def tz32go : Nat → Nat → Nat
  | 0, _ => 0
  | fuel + 1, n => if n % 2 = 1 then 0 else 1 + tz32go fuel (n / 2)

/-- Model of `u32::trailing_zeros`: counts trailing zero bits, 32 for 0. -/
def tz32 (n : Nat) : Nat := tz32go 32 (n % 2 ^ 32)

/-- Fuel-bounded number of binary digits of `n` (0 for 0). -/
def bitLenGo : Nat → Nat → Nat
  | 0, _ => 0
  | fuel + 1, n => if n = 0 then 0 else bitLenGo fuel (n / 2) + 1

/-- Model of `u32::leading_zeros`: 32 minus the bit length of the value. -/
def lz32 (n : Nat) : Nat := 32 - bitLenGo 32 (n % 2 ^ 32)

/-- Model of wrapping `u32` subtraction (release-mode `-` on `u32`). -/
def wsub32 (a b : Nat) : Nat := (a % 2 ^ 32 + (2 ^ 32 - b % 2 ^ 32)) % 2 ^ 32

/-- The three compile-time configuration parameters of `Config` (config.rs). -/
structure Cfg where
  initialPageSize : Nat
  maxPages : Nat
  reservedBits : Nat
deriving DecidableEq

/-- `INITIAL_PAGE_SIZE.trailing_zeros()`, a constant used throughout the codec. -/
def Cfg.tz (c : Cfg) : Nat := tz32 c.initialPageSize

/-- `ConfigPrivate::USED_BITS = 64 - RESERVED_BITS`. -/
def Cfg.usedBits (c : Cfg) : Nat := 64 - c.reservedBits

/-- `ConfigPrivate::SLOT_BITS = MAX_PAGES + INITIAL_PAGE_SIZE.trailing_zeros()`. -/
def Cfg.slotBits (c : Cfg) : Nat := c.maxPages + c.tz

/-- `ConfigPrivate::SLOT_MASK = (1 << SLOT_BITS) - 1`. -/
def Cfg.slotMask (c : Cfg) : Nat := 2 ^ c.slotBits - 1

/-- `ConfigPrivate::GENERATION_BITS = USED_BITS - SLOT_BITS`. -/
def Cfg.genBits (c : Cfg) : Nat := c.usedBits - c.slotBits

/-- `ConfigPrivate::GENERATION_MASK = (1 << GENERATION_BITS) - 1`. -/
def Cfg.genMask (c : Cfg) : Nat := 2 ^ c.genBits - 1

/-- `ConfigPrivate::MAX_SLOTS = (2^MAX_PAGES - 1) * INITIAL_PAGE_SIZE`. -/
def Cfg.maxSlots (c : Cfg) : Nat := (2 ^ c.maxPages - 1) * c.initialPageSize

/-- The compile-time validity checks of `ConfigPrivate::ENSURE_VALID`,
together with the `u32` range of the parameters and the absence of
underflow in the `USED_BITS - SLOT_BITS` constant computation. -/
structure Cfg.Valid (c : Cfg) : Prop where
  ips_pow : ∃ k, c.initialPageSize = 2 ^ k
  ips_lt : c.initialPageSize < 2 ^ 32
  mp_pos : 0 < c.maxPages
  rb_le : c.reservedBits ≤ 32
  sb_le : c.slotBits ≤ 32
  sb_le_used : c.slotBits ≤ c.usedBits
  gb_le : c.genBits ≤ 32

/-- The default configuration `DefaultConfig` of config.rs. -/
def cfgDefault : Cfg := ⟨32, 27, 0⟩

/-- The test configuration `INITIAL_PAGE_SIZE=4, MAX_PAGES=1, RESERVED_BITS=32`. -/
def cfg441 : Cfg := ⟨4, 1, 32⟩

/-- `Key::new_unchecked`: `u64::from(generation) << SLOT_BITS | u64::from(slot_id)`. -/
def mkKeyRaw (c : Cfg) (slotId genV : Nat) : Nat :=
  ((genV % 2 ^ 32) <<< c.slotBits) % 2 ^ 64 ||| slotId % 2 ^ 32

/-- `Key::slot_id`: `raw as u32 & SLOT_MASK`. -/
def keySlotId (c : Cfg) (raw : Nat) : Nat := raw % 2 ^ 32 &&& c.slotMask

/-- `Key::generation`: `(raw >> SLOT_BITS) as u32 & GENERATION_MASK`. -/
def keyGenRaw (c : Cfg) (raw : Nat) : Nat :=
  (raw >>> c.slotBits) % 2 ^ 32 &&& c.genMask

/-- `Key::page_no`: `32 - INITIAL_PAGE_SIZE.trailing_zeros() - 1 - slot_id.leading_zeros()`,
with the release-mode wrapping `u32` subtraction. -/
def keyPageNo (c : Cfg) (raw : Nat) : Nat :=
  wsub32 (wsub32 (wsub32 32 c.tz) 1) (lz32 (keySlotId c raw))

/-- `Generation::inc`: `(value + 1) & GENERATION_MASK`. -/
def genInc (c : Cfg) (g : Nat) : Nat := (g + 1) &&& c.genMask

/-- `PageNo::start_slot_id`: `1 << (INITIAL_PAGE_SIZE.trailing_zeros() + page_no)`. -/
def startOf (c : Cfg) (p : Nat) : Nat := 2 ^ (c.tz + p)

/-- `PageNo::capacity`: `INITIAL_PAGE_SIZE * 2^page_no`. -/
def capOf (c : Cfg) (p : Nat) : Nat := c.initialPageSize * 2 ^ p

/-- One slot (slot.rs): generation counter, free-list link, data pointer. -/
structure SlotM (T : Type) where
  generation : Nat
  nextFree : Nat
  data : Option T
deriving DecidableEq

/-- `Slot::new(next_free)`: generation 0, empty data. -/
def SlotM.new {T : Type} (nf : Nat) : SlotM T := ⟨0, nf, none⟩

/-- `Slot::get`: load the data pointer, load the generation, return null on a
generation mismatch and the loaded pointer otherwise. -/
def SlotM.get {T : Type} (c : Cfg) (s : SlotM T) (raw : Nat) : Option T :=
  if keyGenRaw c raw = s.generation then s.data else none

/-- `Slot::uninit` with explicit interference: `sAtGet` is the slot state
observed by the initial `get`, `sAtCas` the state current at the
compare-exchange.  On CAS success the value is released and
`key.generation + 1 & GENERATION_MASK` is stored; any failure leaves the
slot as it currently is. -/
def slotUninit {T : Type} [DecidableEq T] (c : Cfg) (sAtGet sAtCas : SlotM T)
    (raw : Nat) : Bool × SlotM T :=
  match SlotM.get c sAtGet raw with
  | none => (false, sAtCas)
  | some p =>
    if sAtCas.data = some p then
      (true, { sAtCas with data := none,
                           generation := genInc c (keyGenRaw c raw) })
    else
      (false, sAtCas)

/-- One page (page.rs): start slot id, capacity, lazily allocated slot
array, free-list head. -/
structure PageM (T : Type) where
  startSlotId : Nat
  capacity : Nat
  slots : Option (List (SlotM T))
  freeHead : Nat
deriving DecidableEq

/-- `Page::allocate`: a fresh slot array pre-linked `0 → 1 → ⋯ → cap-1 → MAX`. -/
def pageSlotsInit (T : Type) (cap : Nat) : List (SlotM T) :=
  (List.range cap).map fun i => SlotM.new (if i + 1 < cap then i + 1 else U32MAX)

/-- `Page::new(page_no)`: metadata only, null slot array, free head 0. -/
def pageNew (T : Type) (c : Cfg) (p : Nat) : PageM T :=
  { startSlotId := startOf c p
    capacity := capOf c p
    slots := none
    freeHead := 0 }

/-- The pop of `Page::reserve` once the slot array `l` exists: if the free
head is the sentinel the page is full; otherwise pop the head slot and
build the key from `start_slot_id + slot_index` and the slot's generation.
Returns the reservation (key and slot index), the updated page, and
whether this call materialized the array. -/
def reserveCore (T : Type) (c : Cfg) (pg : PageM T) (l : List (SlotM T))
    (didAlloc : Bool) : Option (Nat × Nat) × PageM T × Bool :=
  if pg.freeHead = U32MAX then (none, pg, didAlloc)
  else
    match l[pg.freeHead]? with
    | none => (none, pg, didAlloc)
    | some s =>
      (some (mkKeyRaw c (pg.startSlotId + pg.freeHead) s.generation, pg.freeHead),
       { pg with freeHead := s.nextFree }, didAlloc)

/-- `Page::reserve`: materialize the slot array on first demand
(`PageControl::get_or_lock` + `Page::allocate`), then pop the free list. -/
def pageReserve (T : Type) (c : Cfg) (pg : PageM T) :
    Option (Nat × Nat) × PageM T × Bool :=
  match pg.slots with
  | some l => reserveCore T c pg l false
  | none =>
    let l := pageSlotsInit T pg.capacity
    reserveCore T c { pg with slots := some l } l true

/-- `Slot::init` on the reserved slot: swap the data pointer from null to
the freshly allocated value. -/
def pageInit (T : Type) (pg : PageM T) (idx : Nat) (v : T) : PageM T :=
  match pg.slots with
  | none => pg
  | some l =>
    match l[idx]? with
    | none => pg
    | some s => { pg with slots := some (l.set idx { s with data := some v }) }

/-- `Page::remove`: null slot array means false; otherwise index by
`slot_id - start_slot_id` (wrapping `u32` subtraction), run `Slot::uninit`
(sequential semantics: the CAS observes the state loaded by `get`), and on
success push the slot back onto the free list (`Page::add_free`). -/
def pageRemove (T : Type) (c : Cfg) (pg : PageM T) (raw : Nat) : Bool × PageM T :=
  match pg.slots with
  | none => (false, pg)
  | some l =>
    let idx := wsub32 (keySlotId c raw) pg.startSlotId
    match l[idx]? with
    | none => (false, pg)
    | some s =>
      if keyGenRaw c raw = s.generation then
        match s.data with
        | none => (false, pg)
        | some _ =>
          let s1 : SlotM T :=
            { generation := genInc c (keyGenRaw c raw)
              nextFree := pg.freeHead
              data := none }
          (true, { pg with slots := some (l.set idx s1), freeHead := idx })
      else (false, pg)

/-- `Page::get`: null slot array means none; otherwise index the slot and
run `Slot::get`. -/
def pageGetVal (T : Type) (c : Cfg) (pg : PageM T) (raw : Nat) : Option T :=
  match pg.slots with
  | none => none
  | some l =>
    match l[wsub32 (keySlotId c raw) pg.startSlotId]? with
    | none => none
    | some s => SlotM.get c s raw

/-- `page::Iter`: scan the slots of an allocated page in order, synthesize
the key from `start_slot_id + offset` and the observed generation, and
yield the occupied slots. -/
def pageIterEntries (T : Type) (c : Cfg) (pg : PageM T) : List (Nat × T) :=
  match pg.slots with
  | none => []
  | some l =>
    (List.range l.length).filterMap fun i =>
      match l[i]? with
      | none => none
      | some s =>
        match SlotM.get c s (mkKeyRaw c (pg.startSlotId + i) s.generation) with
        | none => none
        | some v => some (mkKeyRaw c (pg.startSlotId + i) s.generation, v)

/-- Number of vacant slots a page still offers (an unallocated page offers
its whole capacity). -/
def pageVacant (T : Type) (pg : PageM T) : Nat :=
  match pg.slots with
  | none => pg.capacity
  | some l => l.countP fun s => s.data.isNone

/-- The values currently stored in a page. -/
def pageValues (T : Type) (pg : PageM T) : List T :=
  match pg.slots with
  | none => []
  | some l => l.filterMap fun s => s.data

/-- The IDR (lib.rs): the fixed array of `MAX_PAGES` pages plus the
`PageControl::allocated` counter. -/
structure IdrM (T : Type) where
  pages : List (PageM T)
  allocatedCtr : Nat
deriving DecidableEq

/-- `Idr::new`: `MAX_PAGES` vacant pages, nothing allocated. -/
def idrNew (T : Type) (c : Cfg) : IdrM T :=
  ⟨(List.range c.maxPages).map (pageNew T c), 0⟩

/-- Write back page `i` and bump the allocation counter if this attempt
materialized the page (`get_or_lock` increments `allocated`). -/
def setPage (T : Type) (idr : IdrM T) (i : Nat) (pg : PageM T) (da : Bool) : IdrM T :=
  { pages := idr.pages.set i pg
    allocatedCtr := idr.allocatedCtr + (if da then 1 else 0) }

/-- One attempt of `choose`'s closure at page `i`: `Page::reserve` followed
(on success) by `VacantEntry::insert`, i.e. `Slot::init`, as done by
`Idr::insert`. -/
def tryInsertAt (T : Type) (c : Cfg) (v : T) (idr : IdrM T) (i : Nat) :
    Option Nat × IdrM T :=
  match idr.pages[i]? with
  | none => (none, idr)
  | some pg =>
    match pageReserve T c pg with
    | (none, pg1, da) => (none, setPage T idr i pg1 da)
    | (some (key, idx), pg1, da) =>
      (some key, setPage T idr i (pageInit T pg1 idx v) da)

/-- A scan of `choose` over the given page indices, threading the state. -/
def scanPages (T : Type) (c : Cfg) (v : T) : List Nat → IdrM T → Option Nat × IdrM T
  | [], idr => (none, idr)
  | i :: rest, idr =>
    match tryInsertAt T c v idr i with
    | (some k, idr1) => (some k, idr1)
    | (none, idr1) => scanPages T c v rest idr1

/-- `Idr::insert` via `PageControl::choose`: if any page is allocated, scan
`pages[start..allocated]` from the random start index, then fall through to
a linear scan over all pages. -/
def idrInsert (T : Type) (c : Cfg) (idr : IdrM T) (start : Nat) (v : T) :
    Option Nat × IdrM T :=
  let a := idr.allocatedCtr
  match (if 0 < a then scanPages T c v (List.range' start (a - start)) idr
         else (none, idr)) with
  | (some k, idr1) => (some k, idr1)
  | (none, idr1) => scanPages T c v (List.range idr1.pages.length) idr1

/-- `Idr::remove`: dispatch on the decoded page number; a missing page
returns false. -/
def idrRemove (T : Type) (c : Cfg) (idr : IdrM T) (raw : Nat) : Bool × IdrM T :=
  match idr.pages[keyPageNo c raw]? with
  | none => (false, idr)
  | some pg =>
    match pageRemove T c pg raw with
    | (r, pg1) => (r, { idr with pages := idr.pages.set (keyPageNo c raw) pg1 })

/-- The value observed by `Idr::get` (none when the borrowed pointer is null). -/
def idrGetVal (T : Type) (c : Cfg) (idr : IdrM T) (raw : Nat) : Option T :=
  match idr.pages[keyPageNo c raw]? with
  | none => none
  | some pg => pageGetVal T c pg raw

/-- `Idr::get` as a state transformer: it performs only loads, so the
returned state is the input state. -/
def idrGet (T : Type) (c : Cfg) (idr : IdrM T) (raw : Nat) : Option T × IdrM T :=
  (idrGetVal T c idr raw, idr)

/-- `Idr::contains`: thin wrapper over `get`. -/
def idrContains (T : Type) (c : Cfg) (idr : IdrM T) (raw : Nat) : Bool :=
  (idrGetVal T c idr raw).isSome

/-- `handles::Iter`: chain the page iterators in page order; the iterator
stops for good at the first page whose slot array is null. -/
def idrIterEntries (T : Type) (c : Cfg) (idr : IdrM T) : List (Nat × T) :=
  (idr.pages.takeWhile fun pg => pg.slots.isSome).flatMap (pageIterEntries T c)

/-- Repeated `Idr::insert` with explicit random start indices; returns the
number of successful inserts and the final state. -/
def insertMany (T : Type) (c : Cfg) : IdrM T → List (Nat × T) → Nat × IdrM T
  | idr, [] => (0, idr)
  | idr, (s, v) :: rest =>
    match idrInsert T c idr s v with
    | (r, idr1) =>
      match insertMany T c idr1 rest with
      | (n, idrF) => ((if r.isSome then 1 else 0) + n, idrF)

/-- Total number of vacant slots (unallocated pages count in full). -/
def vacantCount (T : Type) (idr : IdrM T) : Nat :=
  (idr.pages.map (pageVacant T)).sum

/-- All values currently stored in the IDR. -/
def occValues (T : Type) (idr : IdrM T) : List T :=
  idr.pages.flatMap (pageValues T)

/-- Classifier for the failure paths of `get`/`remove` on a key: the key's
page is out of range, or not yet materialized, or the indexed slot is
missing, vacant, or of a different generation. -/
def keyDeadB (T : Type) (c : Cfg) (idr : IdrM T) (raw : Nat) : Bool :=
  match idr.pages[keyPageNo c raw]? with
  | none => true
  | some pg =>
    match pg.slots with
    | none => true
    | some l =>
      match l[wsub32 (keySlotId c raw) pg.startSlotId]? with
      | none => true
      | some s => s.data.isNone || decide (keyGenRaw c raw ≠ s.generation)

/-- The free list of a page as the chain of indices reached from `head`
through the `next_free` links, with the given fuel; `none` means a broken
or too-long chain. -/
def freeChain (T : Type) (l : List (SlotM T)) : Nat → Nat → Option (List Nat)
  | 0, head => if head = U32MAX then some [] else none
  | fuel + 1, head =>
    if head = U32MAX then some []
    else
      match l[head]? with
      | none => none
      | some s => (freeChain T l fuel s.nextFree).map (head :: ·)

/-- Well-formedness of one page at page number `p`: correct metadata; a
vacant page keeps the initial free head 0; an allocated page has a full
array whose generations are in range and whose free list is an acyclic
chain enumerating exactly the vacant slots. -/
structure PageWf (T : Type) (c : Cfg) (p : Nat) (pg : PageM T) : Prop where
  start_eq : pg.startSlotId = startOf c p
  cap_eq : pg.capacity = capOf c p
  unalloc : pg.slots = none → pg.freeHead = 0
  alloc : ∀ l, pg.slots = some l →
    l.length = pg.capacity ∧
    (∀ s ∈ l, s.generation < 2 ^ c.genBits) ∧
    ∃ ch, freeChain T l l.length pg.freeHead = some ch ∧ ch.Nodup ∧
      ∀ i s, l[i]? = some s → (s.data = none ↔ i ∈ ch)

/-- Well-formedness of the whole IDR: `MAX_PAGES` pages, each page
well-formed, and the allocated pages are exactly the first
`allocatedCtr` ones. -/
structure Wf (T : Type) (c : Cfg) (idr : IdrM T) : Prop where
  len_eq : idr.pages.length = c.maxPages
  page_wf : ∀ p pg, idr.pages[p]? = some pg → PageWf T c p pg
  ctr_le : idr.allocatedCtr ≤ c.maxPages
  alloc_iff : ∀ p pg, idr.pages[p]? = some pg →
    (pg.slots.isSome ↔ p < idr.allocatedCtr)

/-- A page that `Page::reserve` can do nothing with: already allocated and
its free list exhausted. -/
def PageFull (T : Type) (idr : IdrM T) (i : Nat) : Prop :=
  ∀ pg, idr.pages[i]? = some pg → pg.slots.isSome ∧ pg.freeHead = U32MAX

/-- Program counter of one remover thread running `Slot::uninit`:
load the data pointer, load the generation and null-check, the
compare-exchange, the generation store, finished. -/
inductive RmPc where
  | load
  | check
  | cas
  | bump
  | done
deriving DecidableEq

/-- One remover thread: program counter, the loaded pointer, the return
value once finished. -/
structure RmTd where
  pc : RmPc
  reg : Option Nat
  res : Option Bool
deriving DecidableEq

/-- Shared slot state plus the two remover threads.  The data pointer is a
nullable pointer identity (`some 0` is the initially stored allocation). -/
structure RmSt where
  data : Option Nat
  gen : Nat
  ta : RmTd
  tb : RmTd
deriving DecidableEq

/-- One atomic step of `Slot::uninit` by thread `a` (true) or `b` (false),
both removing the same key of generation `kg`; `gNew` is the value the
successful remover stores into the generation counter. -/
def rmStep (kg gNew : Nat) (s : RmSt) (who : Bool) : RmSt :=
  let td := if who then s.ta else s.tb
  let put : RmSt → RmTd → RmSt := fun st t =>
    if who then { st with ta := t } else { st with tb := t }
  match td.pc with
  | .load => put s { td with reg := s.data, pc := .check }
  | .check =>
    match (if kg = s.gen then td.reg else none) with
    | none => put s { td with res := some false, pc := .done }
    | some p => put s { td with reg := some p, pc := .cas }
  | .cas =>
    if s.data = td.reg then
      put { s with data := none } { td with pc := .bump }
    else
      put s { td with res := some false, pc := .done }
  | .bump => put { s with gen := gNew } { td with res := some true, pc := .done }
  | .done => s

/-- The initial state of the two-remover scenario: the slot is occupied and
its generation matches the key. -/
def rmInit (kg : Nat) : RmSt :=
  ⟨some 0, kg, ⟨.load, none, none⟩, ⟨.load, none, none⟩⟩

/-- Run a schedule (list of thread turns) from the initial state. -/
def rmRun (kg gNew : Nat) (sched : List Bool) : RmSt :=
  sched.foldl (rmStep kg gNew) (rmInit kg)

/-- All lists of `n` thread turns. -/
def boolLists : Nat → List (List Bool)
  | 0 => [[]]
  | n + 1 => (boolLists n).flatMap fun l => [true :: l, false :: l]

/-- Every interleaving of the four atomic steps of each of the two removers. -/
def rmSchedules : List (List Bool) :=
  (boolLists 8).filter fun l => l.count true = 4

/-- Exactly one of the two removers returned true, the other false. -/
def rmExactlyOne (s : RmSt) : Bool :=
  (s.ta.res = some true && s.tb.res = some false) ||
  (s.ta.res = some false && s.tb.res = some true)

/-- Boolean-abstracted slot generation: `gen` records whether the slot's
generation currently equals the key's; `mb` is that truth value after the
bump.  Used only to transport the interleaving theorem over arbitrary
generation values. -/
structure RmStB where
  data : Option Nat
  gen : Bool
  ta : RmTd
  tb : RmTd
deriving DecidableEq

/-- `rmStep` on the Boolean abstraction. -/
def rmStepB (mb : Bool) (s : RmStB) (who : Bool) : RmStB :=
  let td := if who then s.ta else s.tb
  let put : RmStB → RmTd → RmStB := fun st t =>
    if who then { st with ta := t } else { st with tb := t }
  match td.pc with
  | .load => put s { td with reg := s.data, pc := .check }
  | .check =>
    match (if s.gen then td.reg else none) with
    | none => put s { td with res := some false, pc := .done }
    | some p => put s { td with reg := some p, pc := .cas }
  | .cas =>
    if s.data = td.reg then
      put { s with data := none } { td with pc := .bump }
    else
      put s { td with res := some false, pc := .done }
  | .bump => put { s with gen := mb } { td with res := some true, pc := .done }
  | .done => s

/-- Abstraction map from concrete to Boolean generation state. -/
def rmAbs (kg : Nat) (s : RmSt) : RmStB :=
  ⟨s.data, decide (kg = s.gen), s.ta, s.tb⟩

/-- Run of the Boolean abstraction. -/
def rmRunB (mb : Bool) (sched : List Bool) : RmStB :=
  sched.foldl (rmStepB mb) ⟨some 0, true, ⟨.load, none, none⟩, ⟨.load, none, none⟩⟩

/-- Exactly-one check on the abstraction. -/
def rmExactlyOneB (s : RmStB) : Bool :=
  (s.ta.res = some true && s.tb.res = some false) ||
  (s.ta.res = some false && s.tb.res = some true)

/-! ### Arithmetic facts about the key codec -/

theorem lor_mul_pow_add {a b k : Nat} (hb : b < 2 ^ k) :
    a * 2 ^ k ||| b = a * 2 ^ k + b := by
  apply Nat.eq_of_testBit_eq
  intro i
  have hpos : 0 < 2 ^ k := Nat.pos_pow_of_pos k (by omega)
  have h1 : (a * 2 ^ k + b).testBit i =
      if i < k then b.testBit i else a.testBit (i - k) := by
    rw [mul_comm]
    exact Nat.testBit_mul_pow_two_add a hb i
  have h2 : (a * 2 ^ k).testBit i = if i < k then false else a.testBit (i - k) := by
    have hz : a * 2 ^ k = 2 ^ k * a + 0 := by ring
    rw [hz, Nat.testBit_mul_pow_two_add a hpos i]
    simp
  rw [Nat.testBit_lor, h1, h2]
  by_cases h : i < k
  · simp [h]
  · have hbi : b.testBit i = false :=
      Nat.testBit_lt_two_pow (lt_of_lt_of_le hb (Nat.pow_le_pow_right (by omega) (by omega)))
    simp [h, hbi]

theorem tz32_pow_small : ∀ k < 32, tz32 (2 ^ k) = k := by decide

theorem cfg_tz_eq {c : Cfg} (hv : c.Valid) :
    c.initialPageSize = 2 ^ c.tz ∧ c.tz ≤ 31 := by
  obtain ⟨k, hk⟩ := hv.ips_pow
  have hk32 : k < 32 := by
    by_contra h
    have : 2 ^ 32 ≤ 2 ^ k := Nat.pow_le_pow_right (by omega) (by omega)
    have := hv.ips_lt
    omega
  have htz : c.tz = k := by
    unfold Cfg.tz
    rw [hk]
    exact tz32_pow_small k hk32
  have hsb := hv.sb_le
  have hmp := hv.mp_pos
  unfold Cfg.slotBits at hsb
  constructor
  · rw [hk, htz]
  · omega

theorem cfg_sb_add_gb {c : Cfg} (hv : c.Valid) :
    c.slotBits + c.genBits = c.usedBits := by
  have := hv.sb_le_used
  unfold Cfg.genBits
  omega

theorem log2_pin {m n : Nat} (h1 : 2 ^ m ≤ n) (h2 : n < 2 ^ (m + 1)) :
    Nat.log2 n = m := by
  have hn : n ≠ 0 := by
    have : 0 < 2 ^ m := Nat.pos_pow_of_pos m (by omega)
    omega
  have hlt : Nat.log2 n < m + 1 := (Nat.log2_lt hn).mpr h2
  have hge : ¬ Nat.log2 n < m := by
    intro h
    exact absurd ((Nat.log2_lt hn).mp h) (by omega)
  omega

theorem bitLenGo_eq : ∀ (fuel n : Nat), n < 2 ^ fuel →
    bitLenGo fuel n = if n = 0 then 0 else Nat.log2 n + 1
  | 0, n, h => by
    have hn : n = 0 := by
      have h1 : n < 1 := by simpa using h
      omega
    subst hn
    rfl
  | fuel + 1, n, h => by
    unfold bitLenGo
    by_cases h0 : n = 0
    · rw [if_pos h0, if_pos h0]
    · rw [if_neg h0, if_neg h0]
      have hdiv : n / 2 < 2 ^ fuel := by
        have hp : (2 : Nat) ^ (fuel + 1) = 2 ^ fuel * 2 := by ring
        omega
      rw [bitLenGo_eq fuel (n / 2) hdiv]
      by_cases h1 : n / 2 = 0
      · have hn1 : n = 1 := by omega
        subst hn1
        rw [if_pos h1]
        have hl : Nat.log2 1 = 0 := by
          have h2 := (Nat.log2_lt (n := 1) (k := 1) (by omega)).mpr (by norm_num)
          omega
        rw [hl]
      · rw [if_neg h1]
        have hn2 : 2 ≤ n := by omega
        have hstep : Nat.log2 n = Nat.log2 (n / 2) + 1 := by
          conv_lhs => rw [Nat.log2]
          rw [if_pos hn2]
        omega

theorem lz32_pin {m n : Nat} (h1 : 2 ^ m ≤ n) (h2 : n < 2 ^ (m + 1)) (hm : m ≤ 31) :
    lz32 n = 31 - m := by
  have hn32 : n < 2 ^ 32 :=
    lt_of_lt_of_le h2 (Nat.pow_le_pow_right (by omega) (by omega))
  have hn : n ≠ 0 := by
    have : 0 < 2 ^ m := Nat.pos_pow_of_pos m (by omega)
    omega
  unfold lz32
  rw [Nat.mod_eq_of_lt hn32, bitLenGo_eq 32 n hn32, if_neg hn, log2_pin h1 h2]
  omega

theorem lz32_zero : lz32 0 = 32 := by decide

theorem wsub32_noWrap {a b : Nat} (hba : b ≤ a) (ha : a < 2 ^ 32) :
    wsub32 a b = a - b := by
  unfold wsub32
  omega

theorem wsub32_wrap {a b : Nat} (hab : a < b) (hb : b ≤ 2 ^ 32) (ha : a < 2 ^ 32) :
    wsub32 a b = 2 ^ 32 + a - b := by
  unfold wsub32
  omega

theorem keySlotId_eq_mod (c : Cfg) (hv : c.Valid) (raw : Nat) :
    keySlotId c raw = raw % 2 ^ c.slotBits := by
  unfold keySlotId Cfg.slotMask
  rw [Nat.and_pow_two_sub_one_eq_mod]
  exact Nat.mod_mod_of_dvd raw (pow_dvd_pow 2 hv.sb_le)

theorem keySlotId_lt (c : Cfg) (hv : c.Valid) (raw : Nat) :
    keySlotId c raw < 2 ^ c.slotBits := by
  rw [keySlotId_eq_mod c hv raw]
  exact Nat.mod_lt raw (Nat.pos_pow_of_pos _ (by omega))

theorem keyGenRaw_eq_div_mod (c : Cfg) (hv : c.Valid) (raw : Nat) :
    keyGenRaw c raw = raw / 2 ^ c.slotBits % 2 ^ c.genBits := by
  unfold keyGenRaw Cfg.genMask
  rw [Nat.and_pow_two_sub_one_eq_mod, Nat.shiftRight_eq_div_pow]
  exact Nat.mod_mod_of_dvd _ (pow_dvd_pow 2 hv.gb_le)

theorem keyGenRaw_lt (c : Cfg) (hv : c.Valid) (raw : Nat) :
    keyGenRaw c raw < 2 ^ c.genBits := by
  rw [keyGenRaw_eq_div_mod c hv raw]
  exact Nat.mod_lt _ (Nat.pos_pow_of_pos _ (by omega))

theorem mkKeyRaw_eq_add (c : Cfg) (hv : c.Valid) {sid g : Nat}
    (hsid : sid < 2 ^ c.slotBits) (hg : g < 2 ^ c.genBits) :
    mkKeyRaw c sid g = g * 2 ^ c.slotBits + sid := by
  have hg32 : g < 2 ^ 32 :=
    lt_of_lt_of_le hg (Nat.pow_le_pow_right (by omega) hv.gb_le)
  have hsid32 : sid < 2 ^ 32 :=
    lt_of_lt_of_le hsid (Nat.pow_le_pow_right (by omega) hv.sb_le)
  have hused : c.slotBits + c.genBits = c.usedBits := cfg_sb_add_gb hv
  have hused64 : c.usedBits ≤ 64 := by
    unfold Cfg.usedBits
    omega
  have hprod : g * 2 ^ c.slotBits < 2 ^ 64 := by
    have h1 : g * 2 ^ c.slotBits < 2 ^ c.genBits * 2 ^ c.slotBits :=
      (Nat.mul_lt_mul_right (Nat.pos_pow_of_pos _ (by omega))).mpr hg
    have h2 : 2 ^ c.genBits * 2 ^ c.slotBits = 2 ^ c.usedBits := by
      rw [← pow_add]
      congr 1
      omega
    have h3 : (2 : Nat) ^ c.usedBits ≤ 2 ^ 64 := Nat.pow_le_pow_right (by omega) hused64
    omega
  unfold mkKeyRaw
  rw [Nat.mod_eq_of_lt hg32, Nat.shiftLeft_eq, Nat.mod_eq_of_lt hprod,
    Nat.mod_eq_of_lt hsid32]
  exact lor_mul_pow_add hsid

theorem keySlotId_mkKey (c : Cfg) (hv : c.Valid) {sid g : Nat}
    (hsid : sid < 2 ^ c.slotBits) (hg : g < 2 ^ c.genBits) :
    keySlotId c (mkKeyRaw c sid g) = sid := by
  rw [keySlotId_eq_mod c hv, mkKeyRaw_eq_add c hv hsid hg, mul_comm,
    Nat.mul_add_mod, Nat.mod_eq_of_lt hsid]

theorem keyGenRaw_mkKey (c : Cfg) (hv : c.Valid) {sid g : Nat}
    (hsid : sid < 2 ^ c.slotBits) (hg : g < 2 ^ c.genBits) :
    keyGenRaw c (mkKeyRaw c sid g) = g := by
  rw [keyGenRaw_eq_div_mod c hv, mkKeyRaw_eq_add c hv hsid hg, mul_comm,
    Nat.mul_add_div (Nat.pos_pow_of_pos _ (by omega)),
    Nat.div_eq_of_lt hsid]
  simpa using Nat.mod_eq_of_lt hg

theorem keyPageNo_decode (c : Cfg) (hv : c.Valid) (raw : Nat) (p : Nat)
    (hp : p < c.maxPages) (h1 : startOf c p ≤ keySlotId c raw)
    (h2 : keySlotId c raw < 2 * startOf c p) :
    keyPageNo c raw = p := by
  have htz := (cfg_tz_eq hv).2
  have hsb := hv.sb_le
  unfold Cfg.slotBits at hsb
  have hm : c.tz + p ≤ 31 := by omega
  have hdouble : 2 * startOf c p = 2 ^ (c.tz + p + 1) := by
    unfold startOf
    ring
  have hlz : lz32 (keySlotId c raw) = 31 - (c.tz + p) := by
    apply lz32_pin (n := keySlotId c raw) (m := c.tz + p) h1 _ hm
    rw [← hdouble]
    exact h2
  have e1 : wsub32 32 c.tz = 32 - c.tz := wsub32_noWrap (by omega) (by omega)
  have e2 : wsub32 (32 - c.tz) 1 = 32 - c.tz - 1 := wsub32_noWrap (by omega) (by omega)
  have e2b : 32 - c.tz - 1 = 31 - c.tz := by omega
  have e3 : wsub32 (31 - c.tz) (31 - (c.tz + p)) = 31 - c.tz - (31 - (c.tz + p)) :=
    wsub32_noWrap (by omega) (by omega)
  unfold keyPageNo
  rw [hlz, e1, e2, e2b, e3]
  omega

/-- C3: the key encode/decode round-trip.  For every page `p < MAX_PAGES`,
offset below `capacity(p) = INITIAL_PAGE_SIZE * 2^p` and generation below
`2^GENERATION_BITS`, the key packed from `slot_id = start_of(p) + offset`
and the generation is non-zero, and decoding recovers the slot id, the
generation, and `page_no = p = 31 - trailing_zeros(INITIAL_PAGE_SIZE) -
leading_zeros(slot_id)`. -/
theorem c3_key_codec_roundtrip (c : Cfg) (hv : c.Valid) (p off g : Nat)
    (hp : p < c.maxPages) (hoff : off < capOf c p) (hg : g < 2 ^ c.genBits) :
    mkKeyRaw c (startOf c p + off) g ≠ 0 ∧
    keySlotId c (mkKeyRaw c (startOf c p + off) g) = startOf c p + off ∧
    keyGenRaw c (mkKeyRaw c (startOf c p + off) g) = g ∧
    keyPageNo c (mkKeyRaw c (startOf c p + off) g) = p ∧
    p = 31 - tz32 c.initialPageSize - lz32 (startOf c p + off) := by
  obtain ⟨hips, htz31⟩ := cfg_tz_eq hv
  have hsb := hv.sb_le
  have hsbdef : c.slotBits = c.maxPages + c.tz := rfl
  have hcap : capOf c p = 2 ^ (c.tz + p) := by
    unfold capOf
    rw [hips, ← pow_add]
  have hstart : startOf c p = 2 ^ (c.tz + p) := rfl
  have hdouble : (2 : Nat) ^ (c.tz + p + 1) = 2 ^ (c.tz + p) + 2 ^ (c.tz + p) := by
    ring
  have hle : (2 : Nat) ^ (c.tz + p + 1) ≤ 2 ^ c.slotBits :=
    Nat.pow_le_pow_right (by omega) (by omega)
  have hsid : startOf c p + off < 2 ^ c.slotBits := by
    rw [hcap] at hoff
    omega
  have hslot := keySlotId_mkKey c hv hsid hg
  have hpage : keyPageNo c (mkKeyRaw c (startOf c p + off) g) = p := by
    apply keyPageNo_decode c hv _ p hp
    · rw [hslot]
      omega
    · rw [hslot]
      rw [hcap] at hoff
      have : 2 * startOf c p = 2 ^ (c.tz + p + 1) := by
        rw [hstart]
        ring
      omega
  have hlz : lz32 (startOf c p + off) = 31 - (c.tz + p) := by
    apply lz32_pin (m := c.tz + p)
    · omega
    · rw [hcap] at hoff
      omega
    · omega
  refine ⟨?_, hslot, keyGenRaw_mkKey c hv hsid hg, hpage, ?_⟩
  · have := mkKeyRaw_eq_add c hv hsid hg
    have hpos : (0 : Nat) < 2 ^ (c.tz + p) := Nat.pos_pow_of_pos _ (by omega)
    omega
  · show p = 31 - c.tz - lz32 (startOf c p + off)
    rw [hlz]
    omega

/-- C3 witness: the round-trip at a concrete configuration and input. -/
theorem c3_key_codec_roundtrip_witness :
    mkKeyRaw cfg441 (startOf cfg441 0 + 1) 3 ≠ 0 ∧
    keySlotId cfg441 (mkKeyRaw cfg441 (startOf cfg441 0 + 1) 3) = startOf cfg441 0 + 1 ∧
    keyGenRaw cfg441 (mkKeyRaw cfg441 (startOf cfg441 0 + 1) 3) = 3 ∧
    keyPageNo cfg441 (mkKeyRaw cfg441 (startOf cfg441 0 + 1) 3) = 0 ∧
    0 = 31 - tz32 cfg441.initialPageSize - lz32 (startOf cfg441 0 + 1) :=
  c3_key_codec_roundtrip cfg441
    ⟨⟨2, by decide⟩, by decide, by decide, by decide, by decide, by decide, by decide⟩
    0 1 3 (by decide) (by decide) (by decide)

/-! ### List helpers -/

theorem list_set_self {α : Type} (l : List α) (i : Nat) (a : α)
    (h : l[i]? = some a) : l.set i a = l := by
  apply List.ext_getElem?
  intro j
  rw [List.getElem?_set]
  by_cases hij : i = j
  · subst hij
    have hlt : i < l.length := (List.getElem?_eq_some.mp h).1
    rw [if_pos rfl, if_pos hlt, h]
  · rw [if_neg hij]

theorem filterMap_set_some {α β : Type} (f : α → Option β) :
    ∀ (l : List α) (i : Nat) (a b : α) (v : β), l[i]? = some a → f a = none →
      f b = some v → ((l.set i b).filterMap f).Perm (v :: l.filterMap f)
  | [], i, a, b, v, h, _, _ => by simp at h
  | x :: t, 0, a, b, v, h, hfa, hfb => by
    simp only [List.getElem?_cons_zero, Option.some.injEq] at h
    subst h
    rw [List.set_cons_zero, List.filterMap_cons_some hfb, List.filterMap_cons_none hfa]
  | x :: t, i + 1, a, b, v, h, hfa, hfb => by
    simp only [List.getElem?_cons_succ] at h
    rw [List.set_cons_succ]
    match hfx : f x with
    | none =>
      rw [List.filterMap_cons_none hfx, List.filterMap_cons_none hfx]
      exact filterMap_set_some f t i a b v h hfa hfb
    | some w =>
      rw [List.filterMap_cons_some hfx, List.filterMap_cons_some hfx]
      exact ((filterMap_set_some f t i a b v h hfa hfb).cons w).trans
        (List.Perm.swap v w _)

theorem filterMap_set_none {α β : Type} (f : α → Option β) :
    ∀ (l : List α) (i : Nat) (a b : α) (v : β), l[i]? = some a → f a = some v →
      f b = none → (l.filterMap f).Perm (v :: (l.set i b).filterMap f)
  | [], i, a, b, v, h, _, _ => by simp at h
  | x :: t, 0, a, b, v, h, hfa, hfb => by
    simp only [List.getElem?_cons_zero, Option.some.injEq] at h
    subst h
    rw [List.set_cons_zero, List.filterMap_cons_some hfa, List.filterMap_cons_none hfb]
  | x :: t, i + 1, a, b, v, h, hfa, hfb => by
    simp only [List.getElem?_cons_succ] at h
    rw [List.set_cons_succ]
    match hfx : f x with
    | none =>
      rw [List.filterMap_cons_none hfx, List.filterMap_cons_none hfx]
      exact filterMap_set_none f t i a b v h hfa hfb
    | some w =>
      rw [List.filterMap_cons_some hfx, List.filterMap_cons_some hfx]
      exact ((filterMap_set_none f t i a b v h hfa hfb).cons w).trans
        (List.Perm.swap v w _)

theorem chain_length_lt_of_nodup {ch : List Nat} {n j : Nat} (hnd : ch.Nodup)
    (hmem : ∀ i ∈ ch, i < n) (hj : j < n) (hjn : j ∉ ch) : ch.length < n := by
  have hsub : ch.toFinset ⊆ (Finset.range n).erase j := by
    intro i hi
    rw [List.mem_toFinset] at hi
    rw [Finset.mem_erase, Finset.mem_range]
    exact ⟨fun he => hjn (he ▸ hi), hmem i hi⟩
  have hcard := Finset.card_le_card hsub
  rw [List.toFinset_card_of_nodup hnd,
    Finset.card_erase_of_mem (Finset.mem_range.mpr hj), Finset.card_range] at hcard
  omega

/-! ### Free-list chain lemmas -/

theorem freeChain_sentinel {T : Type} (l : List (SlotM T)) :
    ∀ fuel, freeChain T l fuel U32MAX = some [] := by
  intro fuel
  cases fuel <;> simp [freeChain]

theorem freeChain_zero_inv {T : Type} {l : List (SlotM T)} {head : Nat}
    {ch : List Nat} (h : freeChain T l 0 head = some ch) :
    head = U32MAX ∧ ch = [] := by
  unfold freeChain at h
  by_cases hm : head = U32MAX
  · rw [if_pos hm] at h
    cases h
    exact ⟨hm, rfl⟩
  · rw [if_neg hm] at h
    cases h

theorem freeChain_cons {T : Type} {l : List (SlotM T)} {fuel head : Nat}
    {s : SlotM T} {rest : List Nat} (hm : head ≠ U32MAX) (hs : l[head]? = some s)
    (hrest : freeChain T l fuel s.nextFree = some rest) :
    freeChain T l (fuel + 1) head = some (head :: rest) := by
  unfold freeChain
  rw [if_neg hm, hs]
  dsimp only
  rw [hrest]
  rfl

theorem freeChain_succ_inv {T : Type} {l : List (SlotM T)} {fuel head : Nat}
    {ch : List Nat} (hm : head ≠ U32MAX)
    (h : freeChain T l (fuel + 1) head = some ch) :
    ∃ s rest, l[head]? = some s ∧ freeChain T l fuel s.nextFree = some rest ∧
      ch = head :: rest := by
  unfold freeChain at h
  rw [if_neg hm] at h
  match hs : l[head]? with
  | none => rw [hs] at h; cases h
  | some s =>
    rw [hs] at h
    dsimp only at h
    match hrest : freeChain T l fuel s.nextFree with
    | none => rw [hrest] at h; cases h
    | some rest =>
      rw [hrest] at h
      cases h
      exact ⟨s, rest, rfl, hrest, rfl⟩

theorem freeChain_mem_sentinel_cases {T : Type} {l : List (SlotM T)}
    {fuel head : Nat} {ch : List Nat} (h : freeChain T l fuel head = some ch) :
    (head = U32MAX ∧ ch = []) ∨
    (head ≠ U32MAX ∧ ∃ fuel2 s rest, fuel = fuel2 + 1 ∧ l[head]? = some s ∧
      freeChain T l fuel2 s.nextFree = some rest ∧ ch = head :: rest) := by
  by_cases hm : head = U32MAX
  · left
    subst hm
    rw [freeChain_sentinel] at h
    cases h
    exact ⟨rfl, rfl⟩
  · right
    match fuel with
    | 0 => exact absurd (freeChain_zero_inv h).1 hm
    | fuel2 + 1 =>
      obtain ⟨s, rest, hs, hrest, hch⟩ := freeChain_succ_inv hm h
      exact ⟨hm, fuel2, s, rest, rfl, hs, hrest, hch⟩

theorem freeChain_shrink {T : Type} (l : List (SlotM T)) :
    ∀ fuel head ch, freeChain T l fuel head = some ch →
      ∀ fuel2, ch.length ≤ fuel2 → freeChain T l fuel2 head = some ch := by
  intro fuel
  induction fuel with
  | zero =>
    intro head ch h fuel2 _
    obtain ⟨hm, hch⟩ := freeChain_zero_inv h
    subst hm; subst hch
    exact freeChain_sentinel l fuel2
  | succ fuel ih =>
    intro head ch h fuel2 hlen
    by_cases hm : head = U32MAX
    · subst hm
      rw [freeChain_sentinel] at h
      cases h
      exact freeChain_sentinel l fuel2
    · obtain ⟨s, rest, hs, hrest, hch⟩ := freeChain_succ_inv hm h
      subst hch
      simp only [List.length_cons] at hlen
      match fuel2, hlen with
      | f2 + 1, _ =>
        exact freeChain_cons hm hs (ih s.nextFree rest hrest f2 (by omega))

theorem freeChain_length_le {T : Type} (l : List (SlotM T)) :
    ∀ fuel head ch, freeChain T l fuel head = some ch → ch.length ≤ fuel := by
  intro fuel
  induction fuel with
  | zero =>
    intro head ch h
    obtain ⟨_, hch⟩ := freeChain_zero_inv h
    subst hch
    simp
  | succ fuel ih =>
    intro head ch h
    by_cases hm : head = U32MAX
    · subst hm
      rw [freeChain_sentinel] at h
      cases h
      simp
    · obtain ⟨s, rest, _, hrest, hch⟩ := freeChain_succ_inv hm h
      subst hch
      have := ih s.nextFree rest hrest
      simp only [List.length_cons]
      omega

theorem freeChain_mem {T : Type} (l : List (SlotM T)) :
    ∀ fuel head ch, freeChain T l fuel head = some ch →
      ∀ i ∈ ch, ∃ s, l[i]? = some s := by
  intro fuel
  induction fuel with
  | zero =>
    intro head ch h i hi
    obtain ⟨_, hch⟩ := freeChain_zero_inv h
    subst hch
    simp at hi
  | succ fuel ih =>
    intro head ch h i hi
    by_cases hm : head = U32MAX
    · subst hm
      rw [freeChain_sentinel] at h
      cases h
      simp at hi
    · obtain ⟨s, rest, hs, hrest, hch⟩ := freeChain_succ_inv hm h
      subst hch
      rcases List.mem_cons.mp hi with hh | ht
      · exact ⟨s, hh ▸ hs⟩
      · exact ih s.nextFree rest hrest i ht

theorem freeChain_set_preserve {T : Type} {l : List (SlotM T)} {i : Nat}
    {s s2 : SlotM T} (h : l[i]? = some s) (hnf : s2.nextFree = s.nextFree) :
    ∀ fuel head, freeChain T (l.set i s2) fuel head = freeChain T l fuel head := by
  intro fuel
  induction fuel with
  | zero => intro head; rfl
  | succ fuel ih =>
    intro head
    unfold freeChain
    by_cases hm : head = U32MAX
    · rw [if_pos hm, if_pos hm]
    · rw [if_neg hm, if_neg hm]
      by_cases hhi : i = head
      · subst hhi
        have hlt : i < l.length := (List.getElem?_eq_some.mp h).1
        rw [List.getElem?_set_self hlt, h]
        dsimp only
        rw [hnf, ih]
      · rw [List.getElem?_set_ne hhi]
        match l[head]? with
        | none => rfl
        | some s3 =>
          dsimp only
          rw [ih]

theorem freeChain_set_unused {T : Type} (l : List (SlotM T)) (i : Nat) (s2 : SlotM T) :
    ∀ fuel head ch, freeChain T l fuel head = some ch → i ∉ ch →
      freeChain T (l.set i s2) fuel head = some ch := by
  intro fuel
  induction fuel with
  | zero =>
    intro head ch h _
    obtain ⟨hm, hch⟩ := freeChain_zero_inv h
    subst hm; subst hch
    exact freeChain_sentinel _ 0
  | succ fuel ih =>
    intro head ch h hni
    by_cases hm : head = U32MAX
    · subst hm
      rw [freeChain_sentinel] at h
      cases h
      exact freeChain_sentinel _ _
    · obtain ⟨s, rest, hs, hrest, hch⟩ := freeChain_succ_inv hm h
      subst hch
      have hih : i ≠ head := fun he => hni (he ▸ List.mem_cons_self head rest)
      have hs2 : (l.set i s2)[head]? = some s := by
        rw [List.getElem?_set_ne hih, hs]
      exact freeChain_cons hm hs2
        (ih s.nextFree rest hrest (fun ht => hni (List.mem_cons_of_mem head ht)))

theorem pageSlotsInit_get {T : Type} (cap i : Nat) (hi : i < cap) :
    (pageSlotsInit T cap)[i]? =
      some (SlotM.new (if i + 1 < cap then i + 1 else U32MAX)) := by
  unfold pageSlotsInit
  rw [List.getElem?_map, List.getElem?_range hi]
  rfl

theorem pageSlotsInit_length {T : Type} (cap : Nat) :
    (pageSlotsInit T cap).length = cap := by
  unfold pageSlotsInit
  simp

theorem freeChain_fresh {T : Type} (cap : Nat) (hcap : cap < U32MAX) :
    ∀ k h, h + k = cap → 0 < k →
      freeChain T (pageSlotsInit T cap) k h = some (List.range' h k) := by
  intro k
  induction k with
  | zero => omega
  | succ k ih =>
    intro h hk _
    have hh : h < cap := by omega
    have hmax : h ≠ U32MAX := by
      unfold U32MAX at hcap ⊢
      omega
    have hget := pageSlotsInit_get (T := T) cap h hh
    by_cases hlast : h + 1 < cap
    · have hnf : (SlotM.new (T := T) (if h + 1 < cap then h + 1 else U32MAX)).nextFree
          = h + 1 := by
        rw [if_pos hlast]
        rfl
      have hk1 : 0 < k := by omega
      have := freeChain_cons hmax hget (by rw [hnf]; exact ih (h + 1) (by omega) hk1)
      rw [this]
      rw [List.range'_succ]
    · have hk0 : k = 0 := by omega
      subst hk0
      have hnf : (SlotM.new (T := T) (if h + 1 < cap then h + 1 else U32MAX)).nextFree
          = U32MAX := by
        rw [if_neg hlast]
        rfl
      have := freeChain_cons hmax hget (by rw [hnf]; exact freeChain_sentinel _ 0)
      rw [this]
      simp [List.range'_succ]

/-! ### Page-level facts -/

theorem sum_map_set {α : Type} (f : α → Nat) :
    ∀ (l : List α) (i : Nat) (a b : α), l[i]? = some a →
      ((l.set i b).map f).sum + f a = (l.map f).sum + f b
  | [], i, a, b, h => by simp at h
  | x :: t, 0, a, b, h => by
    simp only [List.getElem?_cons_zero, Option.some.injEq] at h
    subst h
    simp only [List.set_cons_zero, List.map_cons, List.sum_cons]
    omega
  | x :: t, i + 1, a, b, h => by
    simp only [List.getElem?_cons_succ] at h
    have := sum_map_set f t i a b h
    simp only [List.set_cons_succ, List.map_cons, List.sum_cons]
    omega

theorem flatMap_set_perm {α β : Type} (f : α → List β) :
    ∀ (l : List α) (i : Nat) (a b : α), l[i]? = some a →
      ((l.set i b).flatMap f ++ f a).Perm (l.flatMap f ++ f b)
  | [], i, a, b, h => by simp at h
  | x :: t, 0, a, b, h => by
    simp only [List.getElem?_cons_zero, Option.some.injEq] at h
    subst h
    rw [List.set_cons_zero]
    simp only [List.flatMap_cons]
    rw [List.append_assoc (f x)]
    have e1 : ((f b ++ t.flatMap f) ++ f x).Perm (f x ++ (f b ++ t.flatMap f)) :=
      List.perm_append_comm
    have e2 : (f b ++ t.flatMap f).Perm (t.flatMap f ++ f b) := List.perm_append_comm
    exact e1.trans (e2.append_left (f x))
  | x :: t, i + 1, a, b, h => by
    simp only [List.getElem?_cons_succ] at h
    rw [List.set_cons_succ]
    simp only [List.flatMap_cons]
    rw [List.append_assoc (f x), List.append_assoc (f x)]
    exact (flatMap_set_perm f t i a b h).append_left (f x)

theorem capOf_pos {c : Cfg} (hv : c.Valid) (p : Nat) : 0 < capOf c p := by
  obtain ⟨hips, _⟩ := cfg_tz_eq hv
  unfold capOf
  have h1 : 0 < c.initialPageSize := by
    rw [hips]
    exact Nat.pos_pow_of_pos _ (by omega)
  exact Nat.mul_pos h1 (Nat.pos_pow_of_pos _ (by omega))

theorem capOf_eq_pow {c : Cfg} (hv : c.Valid) (p : Nat) :
    capOf c p = 2 ^ (c.tz + p) := by
  unfold capOf
  rw [(cfg_tz_eq hv).1, ← pow_add]

theorem capOf_lt_u32max {c : Cfg} (hv : c.Valid) {p : Nat} (hp : p < c.maxPages) :
    capOf c p < U32MAX := by
  rw [capOf_eq_pow hv]
  have hsb := hv.sb_le
  unfold Cfg.slotBits at hsb
  have h2 : (2 : Nat) ^ (c.tz + p) ≤ 2 ^ 31 :=
    Nat.pow_le_pow_right (by omega) (by omega)
  unfold U32MAX
  omega

theorem startAdd_lt_slotBits {c : Cfg} (hv : c.Valid) {p : Nat}
    (hp : p < c.maxPages) {i : Nat} (hi : i < capOf c p) :
    startOf c p + i < 2 ^ c.slotBits := by
  rw [capOf_eq_pow hv] at hi
  have hsb := hv.sb_le
  unfold Cfg.slotBits at hsb
  have hdouble : (2 : Nat) ^ (c.tz + p + 1) = 2 ^ (c.tz + p) + 2 ^ (c.tz + p) := by
    ring
  have hle : (2 : Nat) ^ (c.tz + p + 1) ≤ 2 ^ c.slotBits :=
    Nat.pow_le_pow_right (by omega) (by unfold Cfg.slotBits; omega)
  unfold startOf
  omega

theorem pageWf_fresh (T : Type) (c : Cfg) (p : Nat) :
    PageWf T c p (pageNew T c p) := by
  refine ⟨rfl, rfl, fun _ => rfl, ?_⟩
  intro l hl
  cases hl

theorem pageWf_allocated {T : Type} {c : Cfg} {p : Nat} {pg : PageM T}
    (hv : c.Valid) (hp : p < c.maxPages) (hwf : PageWf T c p pg)
    (hnone : pg.slots = none) :
    PageWf T c p { pg with slots := some (pageSlotsInit T pg.capacity) } := by
  have hcap : pg.capacity = capOf c p := hwf.cap_eq
  have hcpos : 0 < pg.capacity := hcap ▸ capOf_pos hv p
  have hclt : pg.capacity < U32MAX := hcap ▸ capOf_lt_u32max hv hp
  have hfh : pg.freeHead = 0 := hwf.unalloc hnone
  refine ⟨hwf.start_eq, hwf.cap_eq, (fun h => nomatch h), ?_⟩
  intro l2 hl2
  have hl2e : l2 = pageSlotsInit T pg.capacity := by
    cases hl2
    rfl
  subst hl2e
  have hlen : (pageSlotsInit T pg.capacity).length = pg.capacity :=
    pageSlotsInit_length _
  refine ⟨by rw [hlen], ?_, ?_⟩
  · intro s hs
    unfold pageSlotsInit at hs
    rw [List.mem_map] at hs
    obtain ⟨i, _, hsi⟩ := hs
    rw [← hsi]
    exact Nat.pos_pow_of_pos _ (by omega)
  · refine ⟨List.range' 0 pg.capacity, ?_, List.nodup_range' 0 pg.capacity, ?_⟩
    · show freeChain T (pageSlotsInit T pg.capacity) (pageSlotsInit T pg.capacity).length
        pg.freeHead = some (List.range' 0 pg.capacity)
      rw [hlen, hfh]
      exact freeChain_fresh pg.capacity hclt pg.capacity 0 (by omega) hcpos
    · intro i s hi
      have hilt : i < pg.capacity := by
        have := (List.getElem?_eq_some.mp hi).1
        rw [hlen] at this
        exact this
      rw [pageSlotsInit_get _ _ hilt] at hi
      cases hi
      constructor
      · intro _
        rw [List.mem_range'_1]
        omega
      · intro _
        rfl

theorem genInc_lt {c : Cfg} (g : Nat) : genInc c g < 2 ^ c.genBits := by
  unfold genInc Cfg.genMask
  rw [Nat.and_pow_two_sub_one_eq_mod]
  exact Nat.mod_lt _ (Nat.pos_pow_of_pos _ (by omega))

theorem genInc_eq_mod {c : Cfg} (g : Nat) : genInc c g = (g + 1) % 2 ^ c.genBits := by
  unfold genInc Cfg.genMask
  rw [Nat.and_pow_two_sub_one_eq_mod]

theorem mkKeyRaw_bounds (c : Cfg) (hv : c.Valid) {sid g : Nat} (hs0 : 0 < sid)
    (hsid : sid < 2 ^ c.slotBits) (hg : g < 2 ^ c.genBits) :
    mkKeyRaw c sid g % 2 ^ c.usedBits = mkKeyRaw c sid g ∧ mkKeyRaw c sid g ≠ 0 := by
  have hadd := mkKeyRaw_eq_add c hv hsid hg
  have hused : c.slotBits + c.genBits = c.usedBits := cfg_sb_add_gb hv
  have hlt : mkKeyRaw c sid g < 2 ^ c.usedBits := by
    rw [hadd]
    have h1 : g * 2 ^ c.slotBits ≤ (2 ^ c.genBits - 1) * 2 ^ c.slotBits :=
      Nat.mul_le_mul_right _ (by omega)
    have h2 : (2 ^ c.genBits - 1) * 2 ^ c.slotBits + 2 ^ c.slotBits = 2 ^ c.usedBits := by
      have hpos : (0 : Nat) < 2 ^ c.genBits := Nat.pos_pow_of_pos _ (by omega)
      have : (2 ^ c.genBits - 1) * 2 ^ c.slotBits + 2 ^ c.slotBits
          = 2 ^ c.genBits * 2 ^ c.slotBits := by
        rw [Nat.sub_one_mul]
        have hle : 2 ^ c.slotBits ≤ 2 ^ c.genBits * 2 ^ c.slotBits :=
          Nat.le_mul_of_pos_left _ hpos
        omega
      rw [this, ← pow_add]
      congr 1
      omega
    omega
  refine ⟨Nat.mod_eq_of_lt hlt, ?_⟩
  rw [hadd]
  omega

theorem pageReserve_fail {T : Type} {c : Cfg} {pg : PageM T} {l : List (SlotM T)}
    (hl : pg.slots = some l) (hfh : pg.freeHead = U32MAX) :
    pageReserve T c pg = (none, pg, false) := by
  unfold pageReserve
  rw [hl]
  dsimp only
  unfold reserveCore
  rw [if_pos hfh]

theorem pageVacant_zero_of_full {T : Type} {c : Cfg} {p : Nat} {pg : PageM T}
    {l : List (SlotM T)} (hwf : PageWf T c p pg) (hl : pg.slots = some l)
    (hfh : pg.freeHead = U32MAX) : pageVacant T pg = 0 := by
  obtain ⟨_, _, ch, hch, _, hmem⟩ := hwf.alloc l hl
  rw [hfh, freeChain_sentinel] at hch
  cases hch
  unfold pageVacant
  rw [hl]
  rw [List.countP_eq_zero]
  intro s hs
  obtain ⟨i, hi⟩ := List.mem_iff_getElem?.mp hs
  have := hmem i s hi
  simp only [List.not_mem_nil, iff_false] at this
  simp [Option.isNone_iff_eq_none, this]

theorem pageVacant_pos_of_room {T : Type} {c : Cfg} {p : Nat} {pg : PageM T}
    (hv : c.Valid) (hp : p < c.maxPages) (hwf : PageWf T c p pg)
    (hroom : pg.slots = none ∨ pg.freeHead ≠ U32MAX) : 0 < pageVacant T pg := by
  match hl : pg.slots with
  | none =>
    unfold pageVacant
    rw [hl, hwf.cap_eq]
    exact capOf_pos hv p
  | some l =>
    have hfh : pg.freeHead ≠ U32MAX := by
      rcases hroom with h | h
      · rw [hl] at h
        cases h
      · exact h
    obtain ⟨hlen, _, ch, hch, _, hmem⟩ := hwf.alloc l hl
    rcases freeChain_mem_sentinel_cases hch with ⟨hm, _⟩ | ⟨_, _, s, rest, _, hs, _, hchch⟩
    · exact absurd hm hfh
    · unfold pageVacant
      rw [hl]
      rw [List.countP_pos]
      refine ⟨s, ?_, ?_⟩
      · exact List.mem_iff_getElem?.mpr ⟨pg.freeHead, hs⟩
      · have := (hmem pg.freeHead s hs).mpr (by rw [hchch]; exact List.mem_cons_self _ _)
        simp [Option.isNone_iff_eq_none, this]

theorem reserveCore_insert_spec {T : Type} {c : Cfg} {p : Nat} {pg : PageM T}
    {l : List (SlotM T)} (hv : c.Valid) (hp : p < c.maxPages)
    (hwf : PageWf T c p pg) (hl : pg.slots = some l) (hfh : pg.freeHead ≠ U32MAX)
    (da : Bool) (v : T) :
    ∃ k s, l[pg.freeHead]? = some s ∧
      reserveCore T c pg l da =
        (some (k, pg.freeHead), { pg with freeHead := s.nextFree }, da) ∧
      PageWf T c p (pageInit T { pg with freeHead := s.nextFree } pg.freeHead v) ∧
      (pageInit T { pg with freeHead := s.nextFree } pg.freeHead v).slots.isSome ∧
      pageVacant T (pageInit T { pg with freeHead := s.nextFree } pg.freeHead v) + 1 =
        pageVacant T pg ∧
      (pageValues T (pageInit T { pg with freeHead := s.nextFree } pg.freeHead v)).Perm
        (v :: pageValues T pg) ∧
      k % 2 ^ c.usedBits = k ∧ k ≠ 0 := by
  obtain ⟨hlen, hgens, ch, hch, hnd, hmem⟩ := hwf.alloc l hl
  rcases freeChain_mem_sentinel_cases hch with ⟨hm, _⟩ | hcase
  · exact absurd hm hfh
  obtain ⟨_, fuel2, s, rest, hfuel, hs, hrest, hchch⟩ := hcase
  subst hchch
  have hdata : s.data = none := (hmem pg.freeHead s hs).mpr (List.mem_cons_self _ _)
  have hfhlt : pg.freeHead < l.length := (List.getElem?_eq_some.mp hs).1
  refine ⟨mkKeyRaw c (pg.startSlotId + pg.freeHead) s.generation, s, hs, ?_, ?_⟩
  · unfold reserveCore
    rw [if_neg hfh, hs]
  · set pg2 : PageM T := { pg with freeHead := s.nextFree } with hpg2
    have hpg2slots : pg2.slots = some l := hl
    have hinit : pageInit T pg2 pg.freeHead v =
        { pg2 with slots := some (l.set pg.freeHead { s with data := some v }) } := by
      unfold pageInit
      rw [hpg2slots]
      dsimp only
      rw [hs]
    set s2 : SlotM T := { s with data := some v } with hs2
    set l2 : List (SlotM T) := l.set pg.freeHead s2 with hl2
    have hl2len : l2.length = l.length := List.length_set l _ _
    have hrest2 : freeChain T l2 l2.length s.nextFree = some rest := by
      rw [hl2]
      rw [@freeChain_set_preserve T l pg.freeHead s s2 hs rfl]
      rw [List.length_set]
      have hrlen := freeChain_length_le l fuel2 s.nextFree rest hrest
      exact freeChain_shrink l fuel2 s.nextFree rest hrest l.length (by omega)
    have hwf2 : PageWf T c p (pageInit T pg2 pg.freeHead v) := by
      rw [hinit]
      refine ⟨hwf.start_eq, hwf.cap_eq, (fun h => nomatch h), ?_⟩
      intro l3 hl3
      have : l3 = l2 := by cases hl3; rfl
      subst this
      refine ⟨by rw [hl2len, hlen], ?_, rest, hrest2, hnd.of_cons, ?_⟩
      · intro s3 hs3
        rcases List.mem_or_eq_of_mem_set hs3 with h3 | h3
        · exact hgens s3 h3
        · subst h3
          exact hgens s (List.mem_iff_getElem?.mpr ⟨pg.freeHead, hs⟩)
      · intro i s3 hi
        by_cases hieq : i = pg.freeHead
        · subst hieq
          rw [hl2, List.getElem?_set_self hfhlt] at hi
          cases hi
          constructor
          · intro h3
            cases h3
          · intro h3
            exact absurd h3 (List.Nodup.not_mem hnd)
        · rw [hl2, List.getElem?_set_ne (fun h => hieq h.symm)] at hi
          have := hmem i s3 hi
          rw [this]
          constructor
          · intro h3
            rcases List.mem_cons.mp h3 with h4 | h4
            · exact absurd h4 hieq
            · exact h4
          · intro h3
            exact List.mem_cons_of_mem _ h3
      
    refine ⟨hwf2, ?_, ?_, ?_, ?_⟩
    · rw [hinit]
      simp
    · rw [hinit]
      show (l.set pg.freeHead s2).countP (fun s => s.data.isNone) + 1 =
        pageVacant T pg
      have hcount := List.countP_set (fun s : SlotM T => s.data.isNone) l
        pg.freeHead s2 hfhlt
      have hgetl : l[pg.freeHead] = s := by
        have := List.getElem?_eq_some.mp hs
        exact this.2
      rw [hgetl] at hcount
      have hsome : 0 < l.countP (fun s => s.data.isNone) := by
        rw [List.countP_pos]
        refine ⟨s, List.mem_iff_getElem?.mpr ⟨pg.freeHead, hs⟩, ?_⟩
        simp [Option.isNone_iff_eq_none, hdata]
      unfold pageVacant
      rw [hl]
      rw [hcount]
      simp only [hs2]
      simp [Option.isNone_iff_eq_none, hdata]
      omega
    · rw [hinit]
      show ((l.set pg.freeHead s2).filterMap (fun s => s.data)).Perm
        (v :: pageValues T pg)
      unfold pageValues
      rw [hl]
      exact filterMap_set_some _ l pg.freeHead s s2 v hs hdata rfl
    · apply mkKeyRaw_bounds c hv _ _ (hgens s (List.mem_iff_getElem?.mpr ⟨_, hs⟩))
      · rw [hwf.start_eq]
        have : 0 < startOf c p := Nat.pos_pow_of_pos _ (by omega)
        omega
      · rw [hwf.start_eq]
        apply startAdd_lt_slotBits hv hp
        rw [← hwf.cap_eq, ← hlen]
        exact hfhlt

theorem pageSlotsInit_countP (T : Type) (cap : Nat) :
    (pageSlotsInit T cap).countP (fun s => s.data.isNone) = cap := by
  have h1 : ∀ s ∈ pageSlotsInit T cap, (fun s : SlotM T => s.data.isNone) s = true := by
    intro s hs
    unfold pageSlotsInit at hs
    rw [List.mem_map] at hs
    obtain ⟨i, _, hsi⟩ := hs
    rw [← hsi]
    rfl
  rw [List.countP_eq_length.mpr h1, pageSlotsInit_length]

theorem pageSlotsInit_values (T : Type) (cap : Nat) :
    (pageSlotsInit T cap).filterMap (fun s => s.data) = [] := by
  rw [List.filterMap_eq_nil_iff]
  intro s hs
  unfold pageSlotsInit at hs
  rw [List.mem_map] at hs
  obtain ⟨i, _, hsi⟩ := hs
  rw [← hsi]
  rfl

theorem pageReserve_insert_spec {T : Type} {c : Cfg} {p : Nat} {pg : PageM T}
    (hv : c.Valid) (hp : p < c.maxPages) (hwf : PageWf T c p pg)
    (hroom : pg.slots = none ∨ pg.freeHead ≠ U32MAX) (v : T) :
    ∃ k idx pg2 da,
      pageReserve T c pg = (some (k, idx), pg2, da) ∧
      (da = true ↔ pg.slots = none) ∧
      PageWf T c p (pageInit T pg2 idx v) ∧
      (pageInit T pg2 idx v).slots.isSome ∧
      pageVacant T (pageInit T pg2 idx v) + 1 = pageVacant T pg ∧
      (pageValues T (pageInit T pg2 idx v)).Perm (v :: pageValues T pg) ∧
      k % 2 ^ c.usedBits = k ∧ k ≠ 0 := by
  match hl : pg.slots with
  | some l =>
    have hfh : pg.freeHead ≠ U32MAX := by
      rcases hroom with h | h
      · rw [hl] at h
        cases h
      · exact h
    obtain ⟨k, s, hs, hcore, hwf2, hsome, hvac, hval, hb1, hb2⟩ :=
      reserveCore_insert_spec hv hp hwf hl hfh false v
    refine ⟨k, pg.freeHead, _, false, ?_, ?_, hwf2, hsome, hvac, hval, hb1, hb2⟩
    · unfold pageReserve
      rw [hl]
      dsimp only
      rw [hl] at hcore
      exact hcore
    · simp [hl]
  | none =>
    have hfh0 : pg.freeHead = 0 := hwf.unalloc hl
    have hwfA : PageWf T c p { pg with slots := some (pageSlotsInit T pg.capacity) } :=
      pageWf_allocated hv hp hwf hl
    have hlA : ({ pg with slots := some (pageSlotsInit T pg.capacity) } : PageM T).slots
        = some (pageSlotsInit T pg.capacity) := rfl
    have hfhA : ({ pg with slots := some (pageSlotsInit T pg.capacity) } : PageM T).freeHead
        ≠ U32MAX := by
      show pg.freeHead ≠ U32MAX
      rw [hfh0]
      unfold U32MAX
      omega
    obtain ⟨k, s, hs, hcore, hwf2, hsome, hvac, hval, hb1, hb2⟩ :=
      reserveCore_insert_spec hv hp hwfA hlA hfhA true v
    refine ⟨k, pg.freeHead, _, true, ?_, ?_, hwf2, hsome, ?_, ?_, hb1, hb2⟩
    · unfold pageReserve
      rw [hl]
      dsimp only
      exact hcore
    · simp [hl]
    · rw [hvac]
      show pageVacant T { pg with slots := some (pageSlotsInit T pg.capacity) }
          = pageVacant T pg
      unfold pageVacant
      rw [hl]
      dsimp only
      rw [pageSlotsInit_countP]
    · apply hval.trans
      apply List.Perm.cons
      show (pageValues T { pg with slots := some (pageSlotsInit T pg.capacity) }).Perm
        (pageValues T pg)
      unfold pageValues
      rw [hl]
      dsimp only
      rw [pageSlotsInit_values]

theorem pageRemove_total {T : Type} (c : Cfg) (pg : PageM T) (raw : Nat) :
    pageRemove T c pg raw = (false, pg) ∨ (pageRemove T c pg raw).1 = true := by
  unfold pageRemove
  match hl : pg.slots with
  | none => left; rfl
  | some l =>
    dsimp only
    match hg : l[wsub32 (keySlotId c raw) pg.startSlotId]? with
    | none => left; rfl
    | some s =>
      dsimp only
      by_cases hgen : keyGenRaw c raw = s.generation
      · rw [if_pos hgen]
        match hd : s.data with
        | none => left; rfl
        | some v => right; rfl
      · rw [if_neg hgen]
        left
        rfl

theorem pageRemove_success_spec {T : Type} {c : Cfg} {p : Nat} {pg : PageM T}
    (hv : c.Valid) (hp : p < c.maxPages) (hwf : PageWf T c p pg) {raw : Nat}
    {pg2 : PageM T} (h : pageRemove T c pg raw = (true, pg2)) :
    ∃ v, PageWf T c p pg2 ∧ pg2.slots.isSome ∧
      pageVacant T pg2 = pageVacant T pg + 1 ∧
      (pageValues T pg).Perm (v :: pageValues T pg2) := by
  unfold pageRemove at h
  match hl : pg.slots with
  | none =>
    rw [hl] at h
    cases h
  | some l =>
    rw [hl] at h
    dsimp only at h
    obtain ⟨hlen, hgens, ch, hch, hnd, hmem⟩ := hwf.alloc l hl
    set idx := wsub32 (keySlotId c raw) pg.startSlotId with hidx
    match hg : l[idx]? with
    | none =>
      rw [hg] at h
      cases h
    | some s =>
      rw [hg] at h
      dsimp only at h
      by_cases hgen : keyGenRaw c raw = s.generation
      · rw [if_pos hgen] at h
        match hd : s.data with
        | none =>
          rw [hd] at h
          cases h
        | some v =>
          rw [hd] at h
          dsimp only at h
          simp only [Prod.mk.injEq, true_and] at h
          set s1 : SlotM T :=
            { generation := genInc c (keyGenRaw c raw)
              nextFree := pg.freeHead
              data := none } with hs1
          set l2 : List (SlotM T) := l.set idx s1 with hl2
          have hidxlt : idx < l.length := (List.getElem?_eq_some.mp hg).1
          have hnotmem : idx ∉ ch := by
            intro hin
            have := (hmem idx s hg).mpr hin
            rw [hd] at this
            cases this
          have hchlt : ch.length < l.length := by
            apply chain_length_lt_of_nodup hnd _ hidxlt hnotmem
            intro i hi
            obtain ⟨s3, hs3⟩ := freeChain_mem l _ _ _ hch i hi
            exact (List.getElem?_eq_some.mp hs3).1
          have hch1 : freeChain T l (l.length - 1) pg.freeHead = some ch :=
            freeChain_shrink l _ _ _ hch _ (by omega)
          have hch2 : freeChain T l2 (l.length - 1) pg.freeHead = some ch :=
            freeChain_set_unused l idx s1 _ _ _ hch1 hnotmem
          have hidxmax : idx ≠ U32MAX := by
            have h1 : l.length = capOf c p := by
              rw [hlen, hwf.cap_eq]
            have h2 := capOf_lt_u32max hv hp
            omega
          have hs1get : l2[idx]? = some s1 := by
            rw [hl2]
            exact List.getElem?_set_self hidxlt
          have hcons : freeChain T l2 (l.length - 1 + 1) idx = some (idx :: ch) :=
            freeChain_cons hidxmax hs1get (by rw [hs1]; exact hch2)
          have hfuel : l.length - 1 + 1 = l.length := by omega
          rw [hfuel] at hcons
          refine ⟨v, ?_, ?_, ?_, ?_⟩
          · rw [← h]
            refine ⟨hwf.start_eq, hwf.cap_eq, (fun h3 => nomatch h3), ?_⟩
            intro l3 hl3
            have : l3 = l2 := by
              cases hl3
              rfl
            subst this
            refine ⟨by rw [hl2, List.length_set, hlen], ?_, idx :: ch, ?_,
              hnd.cons hnotmem, ?_⟩
            · intro s3 hs3
              rw [hl2] at hs3
              rcases List.mem_or_eq_of_mem_set hs3 with h3 | h3
              · exact hgens s3 h3
              · subst h3
                exact genInc_lt _
            · show freeChain T l2 l2.length idx = some (idx :: ch)
              rw [hl2, List.length_set, ← hl2]
              exact hcons
            · intro i s3 hi
              by_cases hieq : i = idx
              · subst hieq
                rw [hs1get] at hi
                cases hi
                simp [hs1]
              · rw [hl2, List.getElem?_set_ne (fun h3 => hieq h3.symm)] at hi
                rw [hmem i s3 hi]
                constructor
                · intro h3
                  exact List.mem_cons_of_mem _ h3
                · intro h3
                  rcases List.mem_cons.mp h3 with h4 | h4
                  · exact absurd h4 hieq
                  · exact h4
          · rw [← h]
            simp
          · rw [← h]
            show (l.set idx s1).countP (fun s => s.data.isNone) = pageVacant T pg + 1
            have hcount := List.countP_set (fun s : SlotM T => s.data.isNone) l idx s1
              hidxlt
            have hgetl : l[idx] = s := (List.getElem?_eq_some.mp hg).2
            rw [hgetl] at hcount
            unfold pageVacant
            rw [hl]
            rw [hcount, hd]
            simp [hs1]
          · rw [← h]
            show (pageValues T pg).Perm (v :: (l.set idx s1).filterMap (fun s => s.data))
            unfold pageValues
            rw [hl]
            exact filterMap_set_none _ l idx s s1 v hg hd rfl
      · rw [if_neg hgen] at h
        cases h

/-! ### IDR-level facts -/

theorem idrNew_get {T : Type} (c : Cfg) {p : Nat} (hp : p < c.maxPages) :
    (idrNew T c).pages[p]? = some (pageNew T c p) := by
  unfold idrNew
  rw [List.getElem?_map, List.getElem?_range hp]
  rfl

theorem wf_fresh (T : Type) (c : Cfg) : Wf T c (idrNew T c) := by
  refine ⟨by unfold idrNew; simp, ?_, Nat.zero_le _, ?_⟩
  · intro p pg hpg
    unfold idrNew at hpg
    rw [List.getElem?_map] at hpg
    match hr : (List.range c.maxPages)[p]? with
    | none =>
      rw [hr] at hpg
      cases hpg
    | some q =>
      rw [hr] at hpg
      have hq : q = p := by
        have := List.getElem?_range (List.getElem?_eq_some.mp hr).1 (m := p)
        have hlt : p < c.maxPages := by
          have := (List.getElem?_eq_some.mp hr).1
          simpa using this
        rw [List.getElem?_range hlt] at hr
        cases hr
        rfl
      subst hq
      cases hpg
      exact pageWf_fresh T c q
  · intro p pg hpg
    unfold idrNew at hpg
    rw [List.getElem?_map] at hpg
    match hr : (List.range c.maxPages)[p]? with
    | none =>
      rw [hr] at hpg
      cases hpg
    | some q =>
      rw [hr] at hpg
      cases hpg
      constructor
      · intro hsome
        cases hsome
      · intro hlt
        exact absurd hlt (Nat.not_lt_zero p)

theorem sum_map_mul_left {α : Type} (k : Nat) (f : α → Nat) :
    ∀ l : List α, (l.map (fun x => k * f x)).sum = k * (l.map f).sum
  | [] => by simp
  | x :: t => by
    simp only [List.map_cons, List.sum_cons, sum_map_mul_left k f t]
    ring

theorem geom_sum_list : ∀ n : Nat, ((List.range n).map (fun p => 2 ^ p)).sum = 2 ^ n - 1
  | 0 => by simp
  | n + 1 => by
    rw [List.range_succ, List.map_append, List.sum_append, geom_sum_list n]
    have : (2 : Nat) ^ (n + 1) = 2 ^ n + 2 ^ n := by ring
    have hpos : (0 : Nat) < 2 ^ n := Nat.pos_pow_of_pos _ (by omega)
    simp
    omega

theorem vacantCount_fresh (T : Type) (c : Cfg) :
    vacantCount T (idrNew T c) = c.maxSlots := by
  unfold vacantCount idrNew
  rw [List.map_map]
  have h1 : (pageVacant T ∘ pageNew T c) = fun p => c.initialPageSize * 2 ^ p := by
    funext p
    rfl
  rw [h1, sum_map_mul_left, geom_sum_list]
  unfold Cfg.maxSlots
  ring

theorem occValues_fresh (T : Type) (c : Cfg) : occValues T (idrNew T c) = [] := by
  unfold occValues idrNew
  rw [List.flatMap_map]
  apply List.flatMap_eq_nil_iff.mpr
  intro p _
  rfl

theorem tryInsertAt_fail {T : Type} {c : Cfg} {v : T} {idr : IdrM T} {i : Nat}
    {idr2 : IdrM T} (hv : c.Valid) (hwf : Wf T c idr)
    (h : tryInsertAt T c v idr i = (none, idr2)) :
    idr2 = idr ∧ PageFull T idr i := by
  unfold tryInsertAt at h
  match hpg : idr.pages[i]? with
  | none =>
    rw [hpg] at h
    dsimp only at h
    cases h
    exact ⟨rfl, fun pg hg => nomatch hpg ▸ hg⟩
  | some pg =>
    rw [hpg] at h
    dsimp only at h
    have hilt : i < idr.pages.length := (List.getElem?_eq_some.mp hpg).1
    have hip : i < c.maxPages := hwf.len_eq ▸ hilt
    have hpwf := hwf.page_wf i pg hpg
    by_cases hroom : pg.slots = none ∨ pg.freeHead ≠ U32MAX
    · obtain ⟨k, idx, pg2, da, heq, _⟩ := pageReserve_insert_spec hv hip hpwf hroom v
      rw [heq] at h
      cases h
    · push_neg at hroom
      obtain ⟨hne, hfh⟩ := hroom
      obtain ⟨l, hl⟩ := Option.ne_none_iff_exists'.mp hne
      rw [pageReserve_fail hl hfh] at h
      dsimp only at h
      have hset : idr.pages.set i pg = idr.pages := list_set_self _ _ _ hpg
      simp only [Prod.mk.injEq, true_and] at h
      refine ⟨?_, ?_⟩
      · rw [← h]
        unfold setPage
        rw [hset]
        rfl
      · intro pg3 hpg3
        rw [hpg] at hpg3
        cases hpg3
        exact ⟨by rw [hl]; rfl, hfh⟩

theorem tryInsertAt_succ {T : Type} {c : Cfg} {v : T} {idr : IdrM T} {i : Nat}
    {k : Nat} {idr2 : IdrM T} (hv : c.Valid) (hwf : Wf T c idr)
    (hcond : (∀ pg, idr.pages[i]? = some pg → pg.slots.isSome) ∨
      i = idr.allocatedCtr)
    (h : tryInsertAt T c v idr i = (some k, idr2)) :
    Wf T c idr2 ∧ vacantCount T idr2 + 1 = vacantCount T idr ∧
    (occValues T idr2).Perm (v :: occValues T idr) ∧
    k % 2 ^ c.usedBits = k ∧ k ≠ 0 := by
  unfold tryInsertAt at h
  match hpg : idr.pages[i]? with
  | none =>
    rw [hpg] at h
    cases h
  | some pg =>
    rw [hpg] at h
    dsimp only at h
    have hilt : i < idr.pages.length := (List.getElem?_eq_some.mp hpg).1
    have hip : i < c.maxPages := hwf.len_eq ▸ hilt
    have hpwf := hwf.page_wf i pg hpg
    have hroom : pg.slots = none ∨ pg.freeHead ≠ U32MAX := by
      by_contra hroom
      push_neg at hroom
      obtain ⟨hne, hfh⟩ := hroom
      obtain ⟨l, hl⟩ := Option.ne_none_iff_exists'.mp hne
      rw [pageReserve_fail hl hfh] at h
      cases h
    obtain ⟨k2, idx, pg2, da, heq, hda, hwf2, hsome2, hvac2, hval2, hb1, hb2⟩ :=
      pageReserve_insert_spec hv hip hpwf hroom v
    rw [heq] at h
    dsimp only at h
    simp only [Prod.mk.injEq, Option.some.injEq] at h
    obtain ⟨hk, hidr2⟩ := h
    subst hk
    subst hidr2
    set newpg := pageInit T pg2 idx v with hnewpg
    have hvac : vacantCount T (setPage T idr i newpg da) + 1 = vacantCount T idr := by
      unfold vacantCount setPage
      dsimp only
      have := sum_map_set (pageVacant T) idr.pages i pg newpg hpg
      omega
    have hocc : (occValues T (setPage T idr i newpg da)).Perm (v :: occValues T idr) := by
      unfold occValues setPage
      dsimp only
      have h1 := flatMap_set_perm (pageValues T) idr.pages i pg newpg hpg
      have h2 : (idr.pages.flatMap (pageValues T) ++ pageValues T newpg).Perm
          (((v :: idr.pages.flatMap (pageValues T))) ++ pageValues T pg) := by
        apply (List.Perm.append_left _ hval2).trans
        have := @List.perm_middle _ v (idr.pages.flatMap (pageValues T))
          (pageValues T pg)
        exact this.symm.symm.trans (by rw [List.cons_append])
      have h3 := h1.trans h2
      rw [List.cons_append] at h3
      exact (List.perm_append_right_iff _).mp h3
    have hlen2 : (setPage T idr i newpg da).pages.length = c.maxPages := by
      unfold setPage
      dsimp only
      rw [List.length_set]
      exact hwf.len_eq
    have hpagewf : ∀ q pg3, (setPage T idr i newpg da).pages[q]? = some pg3 →
        PageWf T c q pg3 := by
      intro q pg3 hq
      unfold setPage at hq
      dsimp only at hq
      by_cases hqi : i = q
      · subst hqi
        rw [List.getElem?_set_self hilt] at hq
        cases hq
        exact hwf2
      · rw [List.getElem?_set_ne hqi] at hq
        exact hwf.page_wf q pg3 hq
    cases da with
    | false =>
      have hpgsome : pg.slots.isSome := by
        match hps : pg.slots with
        | some _ => rfl
        | none => exact absurd (hda.mpr hps) Bool.false_ne_true
      refine ⟨⟨hlen2, hpagewf, ?_, ?_⟩, hvac, hocc, hb1, hb2⟩
      · unfold setPage
        dsimp only
        simpa using hwf.ctr_le
      · intro q pg3 hq
        unfold setPage at hq ⊢
        dsimp only at hq ⊢
        simp only [Bool.false_eq_true, if_false, Nat.add_zero]
        by_cases hqi : i = q
        · subst hqi
          rw [List.getElem?_set_self hilt] at hq
          cases hq
          have hiff := hwf.alloc_iff i pg hpg
          rw [← hiff]
          simp [hsome2, hpgsome]
        · rw [List.getElem?_set_ne hqi] at hq
          exact hwf.alloc_iff q pg3 hq
    | true =>
      have hpgnone : pg.slots = none := hda.mp rfl
      have hictr : i = idr.allocatedCtr := by
        rcases hcond with hleft | hright
        · have := hleft pg hpg
          rw [hpgnone] at this
          cases this
        · exact hright
      refine ⟨⟨hlen2, hpagewf, ?_, ?_⟩, hvac, hocc, hb1, hb2⟩
      · unfold setPage
        dsimp only
        have := hwf.ctr_le
        simp only [reduceIte]
        omega
      · intro q pg3 hq
        unfold setPage at hq ⊢
        dsimp only at hq ⊢
        simp only [reduceIte]
        by_cases hqi : i = q
        · subst hqi
          rw [List.getElem?_set_self hilt] at hq
          cases hq
          simp [hsome2]
          omega
        · rw [List.getElem?_set_ne hqi] at hq
          have hiff := hwf.alloc_iff q pg3 hq
          rw [hiff]
          constructor
          · intro h4
            omega
          · intro h4
            by_cases hqlt : q < idr.allocatedCtr
            · exact hqlt
            · omega

theorem scanPages_alloc_spec {T : Type} {c : Cfg} {v : T} (hv : c.Valid) :
    ∀ (is : List Nat) (idr : IdrM T), Wf T c idr →
      (∀ j ∈ is, j < idr.allocatedCtr) →
      ∀ r idr2, scanPages T c v is idr = (r, idr2) →
        (r = none → idr2 = idr) ∧
        (∀ k, r = some k → Wf T c idr2 ∧
          vacantCount T idr2 + 1 = vacantCount T idr ∧
          (occValues T idr2).Perm (v :: occValues T idr) ∧
          k % 2 ^ c.usedBits = k ∧ k ≠ 0)
  | [], idr, hwf, hjs, r, idr2, h => by
    unfold scanPages at h
    cases h
    exact ⟨(fun _ => rfl), fun k hk => nomatch hk⟩
  | i :: rest, idr, hwf, hjs, r, idr2, h => by
    unfold scanPages at h
    match hti : tryInsertAt T c v idr i with
    | (some k1, idr1) =>
      rw [hti] at h
      dsimp only at h
      cases h
      have hcond : (∀ pg, idr.pages[i]? = some pg → pg.slots.isSome) ∨
          i = idr.allocatedCtr := by
        left
        intro pg hpg
        rw [hwf.alloc_iff i pg hpg]
        exact hjs i (List.mem_cons_self _ _)
      have := tryInsertAt_succ hv hwf hcond hti
      exact ⟨(fun h2 => nomatch h2), fun k hk => by cases hk; exact this⟩
    | (none, idr1) =>
      rw [hti] at h
      dsimp only at h
      obtain ⟨heq, _⟩ := tryInsertAt_fail hv hwf hti
      rw [heq] at h
      exact scanPages_alloc_spec hv rest idr hwf
        (fun j hj => hjs j (List.mem_cons_of_mem _ hj)) r idr2 h

theorem scanPages_range_spec {T : Type} {c : Cfg} {v : T} (hv : c.Valid) :
    ∀ (m j : Nat) (idr : IdrM T), Wf T c idr → j + m = idr.pages.length →
      (∀ j2, j2 < j → PageFull T idr j2) →
      ∀ r idr2, scanPages T c v (List.range' j m) idr = (r, idr2) →
        (r = none → idr2 = idr ∧ ∀ j2, j2 < idr.pages.length → PageFull T idr j2) ∧
        (∀ k, r = some k → Wf T c idr2 ∧
          vacantCount T idr2 + 1 = vacantCount T idr ∧
          (occValues T idr2).Perm (v :: occValues T idr) ∧
          k % 2 ^ c.usedBits = k ∧ k ≠ 0)
  | 0, j, idr, hwf, hlen, hprev, r, idr2, h => by
    unfold scanPages at h
    cases h
    refine ⟨(fun _ => ⟨rfl, fun j2 hj2 => hprev j2 (by omega)⟩), fun k hk => nomatch hk⟩
  | m + 1, j, idr, hwf, hlen, hprev, r, idr2, h => by
    rw [List.range'_succ] at h
    unfold scanPages at h
    match hti : tryInsertAt T c v idr j with
    | (some k1, idr1) =>
      rw [hti] at h
      dsimp only at h
      cases h
      have hctr : j ≤ idr.allocatedCtr := by
        match j, hprev with
        | 0, _ => omega
        | j3 + 1, hprev =>
          have hfull := hprev j3 (by omega)
          have hj3lt : j3 < idr.pages.length := by omega
          have hsome : idr.pages[j3]? = some (idr.pages[j3]) :=
            List.getElem?_eq_getElem hj3lt
          have := (hfull _ hsome).1
          have := (hwf.alloc_iff j3 _ hsome).mp this
          omega
      have hcond : (∀ pg, idr.pages[j]? = some pg → pg.slots.isSome) ∨
          j = idr.allocatedCtr := by
        by_cases hjs : ∀ pg, idr.pages[j]? = some pg → pg.slots.isSome
        · exact Or.inl hjs
        · right
          push_neg at hjs
          obtain ⟨pg, hpg, hnsome⟩ := hjs
          have := hwf.alloc_iff j pg hpg
          have hnlt : ¬ j < idr.allocatedCtr := fun h2 =>
            hnsome (this.mpr h2)
          omega
      have := tryInsertAt_succ hv hwf hcond hti
      exact ⟨(fun h2 => nomatch h2), fun k hk => by cases hk; exact this⟩
    | (none, idr1) =>
      rw [hti] at h
      dsimp only at h
      obtain ⟨heq, hfull⟩ := tryInsertAt_fail hv hwf hti
      rw [heq] at h
      have hprev2 : ∀ j2, j2 < j + 1 → PageFull T idr j2 := by
        intro j2 hj2
        by_cases hj2e : j2 = j
        · subst hj2e
          exact hfull
        · exact hprev j2 (by omega)
      exact scanPages_range_spec hv m (j + 1) idr hwf (by omega) hprev2 r idr2 h

theorem vacantCount_zero_of_allFull {T : Type} {c : Cfg} {idr : IdrM T}
    (hwf : Wf T c idr) (hfull : ∀ j, j < idr.pages.length → PageFull T idr j) :
    vacantCount T idr = 0 := by
  unfold vacantCount
  apply List.sum_eq_zero
  intro x hx
  rw [List.mem_map] at hx
  obtain ⟨pg, hpg, hfx⟩ := hx
  obtain ⟨i, hi⟩ := List.mem_iff_getElem?.mp hpg
  have hilt : i < idr.pages.length := (List.getElem?_eq_some.mp hi).1
  obtain ⟨hsome, hfh⟩ := hfull i hilt pg hi
  obtain ⟨l, hl⟩ := Option.isSome_iff_exists.mp hsome
  rw [← hfx]
  exact pageVacant_zero_of_full (hwf.page_wf i pg hi) hl hfh

theorem idrInsert_spec {T : Type} {c : Cfg} {idr : IdrM T} {start : Nat} {v : T}
    {r : Option Nat} {idr2 : IdrM T} (hv : c.Valid) (hwf : Wf T c idr)
    (h : idrInsert T c idr start v = (r, idr2)) :
    (r = none → idr2 = idr ∧ vacantCount T idr = 0) ∧
    (∀ k, r = some k → Wf T c idr2 ∧
      vacantCount T idr2 + 1 = vacantCount T idr ∧
      (occValues T idr2).Perm (v :: occValues T idr) ∧
      k % 2 ^ c.usedBits = k ∧ k ≠ 0) := by
  unfold idrInsert at h
  dsimp only at h
  by_cases ha : 0 < idr.allocatedCtr
  · rw [if_pos ha] at h
    match hs1 : scanPages T c v (List.range' start (idr.allocatedCtr - start)) idr with
    | (some k1, idr1) =>
      rw [hs1] at h
      dsimp only at h
      cases h
      have hspec := scanPages_alloc_spec hv _ idr hwf
        (fun j hj => by
          rw [List.mem_range'_1] at hj
          omega) _ _ hs1
      exact ⟨(fun h2 => nomatch h2), fun k hk => by cases hk; exact (hspec.2 k1 rfl)⟩
    | (none, idr1) =>
      rw [hs1] at h
      dsimp only at h
      have hspec := scanPages_alloc_spec hv _ idr hwf
        (fun j hj => by
          rw [List.mem_range'_1] at hj
          omega) _ _ hs1
      have heq : idr1 = idr := hspec.1 rfl
      rw [heq] at h
      have hrange : List.range idr.pages.length =
          List.range' 0 idr.pages.length := List.range_eq_range' _
      rw [hrange] at h
      have hspec2 := scanPages_range_spec hv idr.pages.length 0 idr hwf
        (by omega) (fun j2 hj2 => absurd hj2 (Nat.not_lt_zero _)) r idr2 h
      refine ⟨?_, hspec2.2⟩
      intro hr
      obtain ⟨heq2, hfull⟩ := hspec2.1 hr
      exact ⟨heq2, vacantCount_zero_of_allFull hwf hfull⟩
  · rw [if_neg ha] at h
    dsimp only at h
    have hrange : List.range idr.pages.length =
        List.range' 0 idr.pages.length := List.range_eq_range' _
    rw [hrange] at h
    have hspec2 := scanPages_range_spec hv idr.pages.length 0 idr hwf
      (by omega) (fun j2 hj2 => absurd hj2 (Nat.not_lt_zero _)) r idr2 h
    refine ⟨?_, hspec2.2⟩
    intro hr
    obtain ⟨heq2, hfull⟩ := hspec2.1 hr
    exact ⟨heq2, vacantCount_zero_of_allFull hwf hfull⟩

theorem pageRemove_true_slots {T : Type} {c : Cfg} {pg : PageM T} {raw : Nat}
    {pg2 : PageM T} (h : pageRemove T c pg raw = (true, pg2)) :
    pg.slots.isSome := by
  unfold pageRemove at h
  match hl : pg.slots with
  | none =>
    rw [hl] at h
    cases h
  | some l => rfl

theorem idrRemove_spec {T : Type} {c : Cfg} {idr : IdrM T} {raw : Nat}
    {r : Bool} {idr2 : IdrM T} (hv : c.Valid) (hwf : Wf T c idr)
    (h : idrRemove T c idr raw = (r, idr2)) :
    (r = false → idr2 = idr) ∧
    (r = true → Wf T c idr2 ∧ vacantCount T idr2 = vacantCount T idr + 1 ∧
      ∃ v, (occValues T idr).Perm (v :: occValues T idr2)) := by
  unfold idrRemove at h
  match hpg : idr.pages[keyPageNo c raw]? with
  | none =>
    rw [hpg] at h
    cases h
    exact ⟨(fun _ => rfl), fun hk => nomatch hk⟩
  | some pg =>
    rw [hpg] at h
    dsimp only at h
    have hilt : keyPageNo c raw < idr.pages.length := (List.getElem?_eq_some.mp hpg).1
    have hip : keyPageNo c raw < c.maxPages := hwf.len_eq ▸ hilt
    have hpwf := hwf.page_wf _ pg hpg
    match hrm : pageRemove T c pg raw with
    | (false, pg2) =>
      rw [hrm] at h
      dsimp only at h
      rcases pageRemove_total c pg raw with htot | htot
      · rw [hrm] at htot
        simp only [Prod.mk.injEq, true_and] at htot
        cases h
        refine ⟨(fun _ => ?_), fun hk => nomatch hk⟩
        have hset : idr.pages.set (keyPageNo c raw) pg = idr.pages :=
          list_set_self _ _ _ hpg
        rw [htot, hset]
      · rw [hrm] at htot
        cases htot
    | (true, pg2) =>
      rw [hrm] at h
      dsimp only at h
      cases h
      obtain ⟨v, hwf2, hsome2, hvac2, hval2⟩ := pageRemove_success_spec hv hip hpwf hrm
      have hpgsome : pg.slots.isSome := pageRemove_true_slots hrm
      refine ⟨(fun hk => nomatch hk), fun _ => ⟨⟨?_, ?_, ?_, ?_⟩, ?_, v, ?_⟩⟩
      · dsimp only
        rw [List.length_set]
        exact hwf.len_eq
      · intro q pg3 hq
        dsimp only at hq
        by_cases hqi : keyPageNo c raw = q
        · subst hqi
          rw [List.getElem?_set_self hilt] at hq
          cases hq
          exact hwf2
        · rw [List.getElem?_set_ne hqi] at hq
          exact hwf.page_wf q pg3 hq
      · dsimp only
        exact hwf.ctr_le
      · intro q pg3 hq
        dsimp only at hq ⊢
        by_cases hqi : keyPageNo c raw = q
        · subst hqi
          rw [List.getElem?_set_self hilt] at hq
          cases hq
          rw [← hwf.alloc_iff _ pg hpg]
          simp [hsome2, hpgsome]
        · rw [List.getElem?_set_ne hqi] at hq
          exact hwf.alloc_iff q pg3 hq
      · unfold vacantCount
        dsimp only
        have := sum_map_set (pageVacant T) idr.pages (keyPageNo c raw) pg pg2 hpg
        omega
      · unfold occValues
        dsimp only
        have h1 := flatMap_set_perm (pageValues T) idr.pages (keyPageNo c raw) pg pg2 hpg
        have e2 : ((idr.pages.set (keyPageNo c raw) pg2).flatMap (pageValues T) ++
            pageValues T pg).Perm
            ((idr.pages.set (keyPageNo c raw) pg2).flatMap (pageValues T) ++
              (v :: pageValues T pg2)) :=
          hval2.append_left _
        have e3 : ((idr.pages.set (keyPageNo c raw) pg2).flatMap (pageValues T) ++
            (v :: pageValues T pg2)).Perm
            (v :: ((idr.pages.set (keyPageNo c raw) pg2).flatMap (pageValues T) ++
              pageValues T pg2)) :=
          List.perm_middle
        have e4 := (h1.symm.trans e2).trans e3
        rw [← List.cons_append] at e4
        exact (List.perm_append_right_iff _).mp e4

theorem insertMany_spec {T : Type} {c : Cfg} (hv : c.Valid) :
    ∀ (inputs : List (Nat × T)) (idr : IdrM T), Wf T c idr →
      ∀ n idrF, insertMany T c idr inputs = (n, idrF) →
        Wf T c idrF ∧ n = min inputs.length (vacantCount T idr) ∧
        vacantCount T idrF = vacantCount T idr - inputs.length
  | [], idr, hwf, n, idrF, h => by
    unfold insertMany at h
    cases h
    exact ⟨hwf, by simp, by simp⟩
  | (s, v) :: rest, idr, hwf, n, idrF, h => by
    unfold insertMany at h
    match hins : idrInsert T c idr s v with
    | (r, idr1) =>
      rw [hins] at h
      dsimp only at h
      match hrec : insertMany T c idr1 rest with
      | (n2, idrF2) =>
        rw [hrec] at h
        dsimp only at h
        simp only [Prod.mk.injEq] at h
        obtain ⟨hn, hF⟩ := h
        subst hF
        have hspec := idrInsert_spec hv hwf hins
        match r with
        | none =>
          obtain ⟨heq, hvac0⟩ := hspec.1 rfl
          subst heq
          obtain ⟨hwfF, hn2, hvacF⟩ := insertMany_spec hv rest idr1 hwf n2 idrF2 hrec
          refine ⟨hwfF, ?_, ?_⟩
          · simp at hn
            simp only [List.length_cons]
            omega
          · simp only [List.length_cons]
            omega
        | some k =>
          obtain ⟨hwf1, hvac1, _, _, _⟩ := hspec.2 k rfl
          obtain ⟨hwfF, hn2, hvacF⟩ := insertMany_spec hv rest idr1 hwf1 n2 idrF2 hrec
          refine ⟨hwfF, ?_, ?_⟩
          · simp at hn
            simp only [List.length_cons]
            omega
          · simp only [List.length_cons]
            omega

theorem insertMany_occ {T : Type} {c : Cfg} (hv : c.Valid) :
    ∀ (inputs : List (Nat × T)) (idr : IdrM T), Wf T c idr →
      inputs.length ≤ vacantCount T idr →
      ∀ n idrF, insertMany T c idr inputs = (n, idrF) →
        n = inputs.length ∧ Wf T c idrF ∧
        (occValues T idrF).Perm (inputs.map Prod.snd ++ occValues T idr)
  | [], idr, hwf, hle, n, idrF, h => by
    unfold insertMany at h
    cases h
    exact ⟨rfl, hwf, by simp⟩
  | (s, v) :: rest, idr, hwf, hle, n, idrF, h => by
    unfold insertMany at h
    match hins : idrInsert T c idr s v with
    | (r, idr1) =>
      rw [hins] at h
      dsimp only at h
      match hrec : insertMany T c idr1 rest with
      | (n2, idrF2) =>
        rw [hrec] at h
        dsimp only at h
        simp only [Prod.mk.injEq] at h
        obtain ⟨hn, hF⟩ := h
        subst hF
        have hspec := idrInsert_spec hv hwf hins
        match r with
        | none =>
          obtain ⟨_, hvac0⟩ := hspec.1 rfl
          simp only [List.length_cons] at hle
          omega
        | some k =>
          obtain ⟨hwf1, hvac1, hocc1, _, _⟩ := hspec.2 k rfl
          simp only [List.length_cons] at hle
          obtain ⟨hn2, hwfF, hoccF⟩ := insertMany_occ hv rest idr1 hwf1
            (by omega) n2 idrF2 hrec
          refine ⟨?_, hwfF, ?_⟩
          · simp at hn
            simp only [List.length_cons]
            omega
          · simp only [List.map_cons]
            have e1 : (rest.map Prod.snd ++ occValues T idr1).Perm
                (rest.map Prod.snd ++ (v :: occValues T idr)) :=
              hocc1.append_left _
            have e2 : (rest.map Prod.snd ++ (v :: occValues T idr)).Perm
                (v :: (rest.map Prod.snd ++ occValues T idr)) := List.perm_middle
            exact (hoccF.trans e1).trans e2

theorem filterMap_range_getElem {α β : Type} (f : α → Option β) :
    ∀ l : List α,
      (List.range l.length).filterMap (fun i => l[i]?.bind f) = l.filterMap f
  | [] => by simp
  | x :: t => by
    rw [List.length_cons, List.range_succ_eq_map, List.filterMap_cons,
      List.filterMap_map]
    have hcomp : ((fun i => (x :: t)[i]?.bind f) ∘ Nat.succ)
        = fun i => t[i]?.bind f := by
      funext i
      simp only [Function.comp_apply, Nat.succ_eq_add_one, List.getElem?_cons_succ]
    rw [hcomp, filterMap_range_getElem f t]
    match hfx : f x with
    | none =>
      simp only [List.getElem?_cons_zero, Option.some_bind, hfx]
      rw [List.filterMap_cons_none hfx]
    | some b =>
      simp only [List.getElem?_cons_zero, Option.some_bind, hfx]
      rw [List.filterMap_cons_some hfx]

theorem pageIterEntries_values {T : Type} {c : Cfg} {p : Nat} {pg : PageM T}
    {l : List (SlotM T)} (hv : c.Valid) (hp : p < c.maxPages)
    (hwf : PageWf T c p pg) (hl : pg.slots = some l) :
    (pageIterEntries T c pg).map Prod.snd = pageValues T pg := by
  obtain ⟨hlen, hgens, _⟩ := hwf.alloc l hl
  unfold pageIterEntries pageValues
  rw [hl]
  dsimp only
  rw [List.map_filterMap]
  rw [List.filterMap_congr (g := fun i => l[i]?.bind fun s => s.data)]
  · exact filterMap_range_getElem (fun s : SlotM T => s.data) l
  · intro i hi
    rw [List.mem_range] at hi
    have hg : l[i]? = some l[i] := List.getElem?_eq_getElem hi
    rw [hg]
    dsimp only
    rw [Option.some_bind]
    set s := l[i] with hs
    have hsg : s.generation < 2 ^ c.genBits :=
      hgens s (List.mem_iff_getElem?.mpr ⟨i, hg⟩)
    have hsid : pg.startSlotId + i < 2 ^ c.slotBits := by
      rw [hwf.start_eq]
      apply startAdd_lt_slotBits hv hp
      rw [← hwf.cap_eq, ← hlen]
      exact hi
    have hget : SlotM.get c s (mkKeyRaw c (pg.startSlotId + i) s.generation)
        = s.data := by
      unfold SlotM.get
      rw [keyGenRaw_mkKey c hv hsid hsg, if_pos rfl]
    rw [hget]
    match hd : s.data with
    | none => rfl
    | some v => rfl

theorem iterPages_values {T : Type} {c : Cfg} (hv : c.Valid) (N : Nat) :
    ∀ (ps : List (PageM T)) (p0 : Nat),
      (∀ q pg, ps[q]? = some pg → PageWf T c (p0 + q) pg ∧ p0 + q < c.maxPages ∧
        (pg.slots.isSome ↔ p0 + q < N)) →
      ((ps.takeWhile fun pg => pg.slots.isSome).flatMap
        (fun pg => (pageIterEntries T c pg).map Prod.snd)) =
        ps.flatMap (pageValues T)
  | [], p0, hq => by simp
  | pg :: rest, p0, hq => by
    obtain ⟨hwf0, hp0, halloc0⟩ := hq 0 pg (by simp)
    by_cases hP : pg.slots.isSome
    · obtain ⟨l, hl⟩ := Option.isSome_iff_exists.mp hP
      rw [List.takeWhile_cons_of_pos (p := fun pg : PageM T => pg.slots.isSome) hP]
      rw [List.flatMap_cons, List.flatMap_cons]
      rw [pageIterEntries_values hv hp0 hwf0 hl]
      congr 1
      exact iterPages_values hv N rest (p0 + 1) (fun q pg2 hq2 => by
        have := hq (q + 1) pg2 (by simpa using hq2)
        constructor
        · have h1 := this.1
          have : p0 + (q + 1) = p0 + 1 + q := by omega
          rw [← this]
          exact h1
        · constructor
          · have := this.2.1
            omega
          · have h3 := this.2.2
            constructor
            · intro h4
              have := h3.mp h4
              omega
            · intro h4
              exact h3.mpr (by omega))
    · have hPn : pg.slots.isSome = false := by
        simpa using hP
      rw [List.takeWhile_cons_of_neg
        (p := fun pg : PageM T => pg.slots.isSome) (by simp [hPn])]
      have hN : ¬ p0 < N := fun h4 => hP (halloc0.mpr h4)
      have hall : ∀ pg2 ∈ (pg :: rest), pageValues T pg2 = [] := by
        intro pg2 hmem
        obtain ⟨q, hq2⟩ := List.mem_iff_getElem?.mp hmem
        obtain ⟨_, _, halloc⟩ := hq q pg2 hq2
        have : ¬ pg2.slots.isSome := fun h4 => by
          have := halloc.mp h4
          omega
        have hnone : pg2.slots = none := by
          match hps : pg2.slots with
          | none => rfl
          | some _ => exact absurd (by rw [hps]; rfl) this
        unfold pageValues
        rw [hnone]
      rw [List.flatMap_eq_nil_iff.mpr hall]
      rfl

theorem idrIter_values {T : Type} {c : Cfg} {idr : IdrM T} (hv : c.Valid)
    (hwf : Wf T c idr) :
    (idrIterEntries T c idr).map Prod.snd = occValues T idr := by
  unfold idrIterEntries occValues
  rw [List.map_flatMap]
  exact iterPages_values hv idr.allocatedCtr idr.pages 0 (fun q pg hq => by
    refine ⟨?_, ?_, ?_⟩
    · simpa using hwf.page_wf q pg hq
    · have h1 := (List.getElem?_eq_some.mp hq).1
      have h2 := hwf.len_eq
      simp only [Nat.zero_add]
      omega
    · simpa using hwf.alloc_iff q pg hq)

/-! ### Claim theorems -/

/-- C1: `Slot::get(k, guard)` returns null when the stored generation differs
from the key's generation field; it returns null when the stored data pointer
is null regardless of generation; when the slot is occupied and the stored
generation equals the key's it returns the stored value.  `Idr::get` performs
only loads, so it leaves the IDR state unchanged. -/
theorem c1_slot_get_spec {T : Type} (c : Cfg) (s : SlotM T) (raw : Nat)
    (idr : IdrM T) :
    (keyGenRaw c raw ≠ s.generation → SlotM.get c s raw = none) ∧
    (s.data = none → SlotM.get c s raw = none) ∧
    (∀ v, s.data = some v → keyGenRaw c raw = s.generation →
      SlotM.get c s raw = some v) ∧
    (idrGet T c idr raw).2 = idr := by
  refine ⟨?_, ?_, ?_, rfl⟩
  · intro h
    unfold SlotM.get
    rw [if_neg h]
  · intro h
    unfold SlotM.get
    by_cases hg : keyGenRaw c raw = s.generation
    · rw [if_pos hg, h]
    · rw [if_neg hg]
  · intro v hv hg
    unfold SlotM.get
    rw [if_pos hg, hv]

/-- C1 witness: the three read outcomes at concrete slots and a concrete
state-preservation instance. -/
theorem c1_slot_get_spec_witness :
    (keyGenRaw cfg441 (4 + 8) ≠ (⟨0, 0, some 7⟩ : SlotM Nat).generation →
      SlotM.get cfg441 (⟨0, 0, some 7⟩ : SlotM Nat) (4 + 8) = none) ∧
    ((⟨0, 0, some 7⟩ : SlotM Nat).data = none →
      SlotM.get cfg441 (⟨0, 0, some 7⟩ : SlotM Nat) (4 + 8) = none) ∧
    (∀ v, (⟨0, 0, some 7⟩ : SlotM Nat).data = some v →
      keyGenRaw cfg441 (4 + 8) = (⟨0, 0, some 7⟩ : SlotM Nat).generation →
      SlotM.get cfg441 (⟨0, 0, some 7⟩ : SlotM Nat) (4 + 8) = some v) ∧
    (idrGet Nat cfg441 (idrNew Nat cfg441) (4 + 8)).2 = idrNew Nat cfg441 :=
  c1_slot_get_spec cfg441 ⟨0, 0, some 7⟩ (4 + 8) (idrNew Nat cfg441)

/-- C2: a successful `Slot::uninit` for key `k` stores
`(k.generation + 1) mod 2^GENERATION_BITS` into the slot's generation
counter; a failed removal — null data pointer, generation mismatch, or a
lost compare-exchange — returns false and leaves the slot, in particular
its generation, unchanged. -/
theorem c2_uninit_generation {T : Type} [DecidableEq T] (c : Cfg)
    (sAtGet sAtCas : SlotM T) (raw : Nat) :
    (∀ s2, slotUninit c sAtGet sAtCas raw = (true, s2) →
      s2.generation = (keyGenRaw c raw + 1) % 2 ^ c.genBits) ∧
    (∀ s2, slotUninit c sAtGet sAtCas raw = (false, s2) → s2 = sAtCas) := by
  constructor
  · intro s2 h
    unfold slotUninit at h
    match hg : SlotM.get c sAtGet raw with
    | none =>
      rw [hg] at h
      cases h
    | some p =>
      rw [hg] at h
      dsimp only at h
      by_cases hcas : sAtCas.data = some p
      · rw [if_pos hcas] at h
        simp only [Prod.mk.injEq, true_and] at h
        rw [← h]
        exact genInc_eq_mod _
      · rw [if_neg hcas] at h
        cases h
  · intro s2 h
    unfold slotUninit at h
    match hg : SlotM.get c sAtGet raw with
    | none =>
      rw [hg] at h
      dsimp only at h
      simp only [Prod.mk.injEq, true_and] at h
      exact h.symm
    | some p =>
      rw [hg] at h
      dsimp only at h
      by_cases hcas : sAtCas.data = some p
      · rw [if_pos hcas] at h
        cases h
      · rw [if_neg hcas] at h
        simp only [Prod.mk.injEq, true_and] at h
        exact h.symm

set_option maxRecDepth 4000 in
/-- C2 witness: a successful removal at a concrete slot bumps the
generation, and a lost compare-exchange leaves the competing state alone. -/
theorem c2_uninit_generation_witness :
    (⟨1, 0, none⟩ : SlotM Nat).generation
      = (keyGenRaw cfg441 4 + 1) % 2 ^ cfg441.genBits ∧
    (⟨0, 0, none⟩ : SlotM Nat) = (⟨0, 0, none⟩ : SlotM Nat) :=
  ⟨(c2_uninit_generation cfg441 ⟨0, 0, some 7⟩ ⟨0, 0, some 7⟩ 4).1 ⟨1, 0, none⟩
      (by decide),
   (c2_uninit_generation cfg441 ⟨0, 0, some 7⟩ ⟨0, 0, none⟩ 4).2 ⟨0, 0, none⟩
      (by decide)⟩

/-- C8: for every 64-bit key, if the wrapping-u32 page number decoded from
it is below `MAX_PAGES`, then the decoded slot id is at least that page's
start slot id and the slot index `slot_id - start_slot_id` (which the
wrapping subtraction computes exactly) is below the page's capacity, so the
unchecked indexing of `Page::get`/`Page::remove` stays in bounds and their
debug assertions cannot fire, even for forged keys. -/
theorem c8_page_no_bounds (c : Cfg) (hv : c.Valid) (raw : Nat)
    (h : keyPageNo c raw < c.maxPages) :
    startOf c (keyPageNo c raw) ≤ keySlotId c raw ∧
    wsub32 (keySlotId c raw) (startOf c (keyPageNo c raw)) =
      keySlotId c raw - startOf c (keyPageNo c raw) ∧
    keySlotId c raw - startOf c (keyPageNo c raw) < capOf c (keyPageNo c raw) := by
  obtain ⟨hips, htz31⟩ := cfg_tz_eq hv
  have hsb := hv.sb_le
  have hsbdef : c.slotBits = c.maxPages + c.tz := rfl
  have hmp32 : c.maxPages ≤ 32 := by omega
  have hsid32 : keySlotId c raw < 2 ^ 32 :=
    lt_of_lt_of_le (keySlotId_lt c hv raw) (Nat.pow_le_pow_right (by omega) hsb)
  have e1 : wsub32 32 c.tz = 32 - c.tz := wsub32_noWrap (by omega) (by omega)
  have e2 : wsub32 (32 - c.tz) 1 = 32 - c.tz - 1 := wsub32_noWrap (by omega) (by omega)
  have e2b : 32 - c.tz - 1 = 31 - c.tz := by omega
  by_cases hz : keySlotId c raw = 0
  · exfalso
    unfold keyPageNo at h
    rw [hz, lz32_zero, e1, e2, e2b] at h
    rw [wsub32_wrap (by omega) (by norm_num) (by omega)] at h
    omega
  · set m := Nat.log2 (keySlotId c raw) with hm
    have hm1 : 2 ^ m ≤ keySlotId c raw := Nat.log2_self_le hz
    have hm2 : keySlotId c raw < 2 ^ (m + 1) := Nat.lt_log2_self
    have hm31 : m ≤ 31 := by
      have := (Nat.log2_lt hz).mpr hsid32
      omega
    have hlz : lz32 (keySlotId c raw) = 31 - m := lz32_pin hm1 hm2 hm31
    by_cases hmt : c.tz ≤ m
    · have e3 : wsub32 (31 - c.tz) (31 - m) = 31 - c.tz - (31 - m) :=
        wsub32_noWrap (by omega) (by omega)
      have hpno : keyPageNo c raw = m - c.tz := by
        unfold keyPageNo
        rw [hlz, e1, e2, e2b, e3]
        omega
      have harg : c.tz + (m - c.tz) = m := by omega
      have hstart : startOf c (keyPageNo c raw) = 2 ^ m := by
        rw [hpno]
        unfold startOf
        rw [harg]
      have hcap : capOf c (keyPageNo c raw) = 2 ^ m := by
        rw [hpno]
        unfold capOf
        rw [hips, ← pow_add, harg]
      have hdouble : (2 : Nat) ^ (m + 1) = 2 ^ m + 2 ^ m := by ring
      refine ⟨by omega, ?_, by omega⟩
      rw [hstart]
      exact wsub32_noWrap (by omega) (by omega)
    · exfalso
      unfold keyPageNo at h
      rw [hlz, e1, e2, e2b] at h
      rw [wsub32_wrap (by omega) (by omega) (by omega)] at h
      have : (2 : Nat) ^ 32 = 4294967296 := by norm_num
      omega

/-- C8 witness: the bounds at a concrete forged key. -/
theorem c8_page_no_bounds_witness :
    startOf cfgDefault (keyPageNo cfgDefault 12345) ≤ keySlotId cfgDefault 12345 ∧
    wsub32 (keySlotId cfgDefault 12345)
      (startOf cfgDefault (keyPageNo cfgDefault 12345)) =
      keySlotId cfgDefault 12345 - startOf cfgDefault (keyPageNo cfgDefault 12345) ∧
    keySlotId cfgDefault 12345 - startOf cfgDefault (keyPageNo cfgDefault 12345) <
      capOf cfgDefault (keyPageNo cfgDefault 12345) :=
  c8_page_no_bounds cfgDefault
    ⟨⟨5, by decide⟩, by decide, by decide, by decide, by decide, by decide, by decide⟩
    12345 (by decide)

/-- C4: starting from a fresh IDR and inserting sequentially, exactly
`(2^MAX_PAGES - 1) * INITIAL_PAGE_SIZE` inserts succeed; the next insert
returns none; insert returns none iff no vacant slot exists; and after any
successful removal the next insert succeeds again. -/
theorem c4_capacity (T : Type) (c : Cfg) (hv : c.Valid)
    (inputs : List (Nat × T)) (hlen : inputs.length = c.maxSlots)
    (n : Nat) (idrF : IdrM T)
    (h : insertMany T c (idrNew T c) inputs = (n, idrF)) :
    n = c.maxSlots ∧
    (∀ s v, (idrInsert T c idrF s v).1 = none) ∧
    (∀ raw idr2 s v, idrRemove T c idrF raw = (true, idr2) →
      (idrInsert T c idr2 s v).1.isSome) ∧
    (∀ (idr : IdrM T) s v, Wf T c idr →
      ((idrInsert T c idr s v).1 = none ↔ vacantCount T idr = 0)) := by
  have hvac0 : vacantCount T (idrNew T c) = c.maxSlots := vacantCount_fresh T c
  obtain ⟨hwfF, hn, hvacF⟩ := insertMany_spec hv inputs (idrNew T c) (wf_fresh T c)
    n idrF h
  have hiff : ∀ (idr : IdrM T) s v, Wf T c idr →
      ((idrInsert T c idr s v).1 = none ↔ vacantCount T idr = 0) := by
    intro idr s v hwf
    match hins : idrInsert T c idr s v with
    | (r, idr2) =>
      have hspec := idrInsert_spec hv hwf hins
      constructor
      · intro hr
        exact (hspec.1 hr).2
      · intro hvz
        match r with
        | none => rfl
        | some k =>
          obtain ⟨_, hvac2, _⟩ := hspec.2 k rfl
          omega
  refine ⟨by omega, ?_, ?_, hiff⟩
  · intro s v
    rw [hiff idrF s v hwfF]
    omega
  · intro raw idr2 s v hrm
    obtain ⟨_, hrt⟩ := idrRemove_spec hv hwfF hrm
    obtain ⟨hwf2, hvac2, _⟩ := hrt rfl
    have := hiff idr2 s v hwf2
    rw [Option.isSome_iff_ne_none]
    intro hnone
    have := this.mp hnone
    omega

/-- C4 witness: with `INITIAL_PAGE_SIZE=4, MAX_PAGES=1, RESERVED_BITS=32`,
four sequential inserts all succeed and the conclusions of `c4_capacity`
hold for the resulting state. -/
theorem c4_capacity_witness :
    (insertMany Nat cfg441 (idrNew Nat cfg441) [(0, 10), (0, 11), (0, 12), (0, 13)]).1
      = cfg441.maxSlots ∧
    (∀ s v, (idrInsert Nat cfg441
      (insertMany Nat cfg441 (idrNew Nat cfg441)
        [(0, 10), (0, 11), (0, 12), (0, 13)]).2 s v).1 = none) ∧
    (∀ raw idr2 s v, idrRemove Nat cfg441
        (insertMany Nat cfg441 (idrNew Nat cfg441)
          [(0, 10), (0, 11), (0, 12), (0, 13)]).2 raw = (true, idr2) →
      (idrInsert Nat cfg441 idr2 s v).1.isSome) ∧
    (∀ (idr : IdrM Nat) s v, Wf Nat cfg441 idr →
      ((idrInsert Nat cfg441 idr s v).1 = none ↔ vacantCount Nat idr = 0)) :=
  c4_capacity Nat cfg441
    ⟨⟨2, by decide⟩, by decide, by decide, by decide, by decide, by decide, by decide⟩
    [(0, 10), (0, 11), (0, 12), (0, 13)] (by decide) _ _ rfl

/-- C10: the success of `insert` (equivalently `vacant_entry`) does not
depend on the RNG-chosen start index: for a well-formed state and any two
start indices, one insert reserves a slot iff the other does, because the
unconditional fall-through linear scan over all pages finds a free slot
whenever one exists. -/
theorem c10_start_independence {T : Type} (c : Cfg) (idr : IdrM T) (v : T)
    (s1 s2 : Nat) (hv : c.Valid) (hwf : Wf T c idr) :
    (idrInsert T c idr s1 v).1.isSome = (idrInsert T c idr s2 v).1.isSome := by
  have key : ∀ s : Nat, ((idrInsert T c idr s v).1.isSome ↔
      0 < vacantCount T idr) := by
    intro s
    match hins : idrInsert T c idr s v with
    | (r, idr2) =>
      have hspec := idrInsert_spec hv hwf hins
      constructor
      · intro hsome
        match r with
        | none => cases hsome
        | some k =>
          obtain ⟨_, hvac2, _⟩ := hspec.2 k rfl
          omega
      · intro hpos
        match r with
        | none =>
          have := (hspec.1 rfl).2
          omega
        | some k => rfl
  by_cases hpos : 0 < vacantCount T idr
  · rw [((key s1).mpr hpos : _ = true), ((key s2).mpr hpos : _ = true)]
  · have h1 : ¬ (idrInsert T c idr s1 v).1.isSome = true := fun h2 =>
      hpos ((key s1).mp h2)
    have h2 : ¬ (idrInsert T c idr s2 v).1.isSome = true := fun h2 =>
      hpos ((key s2).mp h2)
    rw [Bool.not_eq_true] at h1 h2
    rw [h1, h2]

/-- C10 witness: at a concrete well-formed state, two different start
indices yield the same success outcome. -/
theorem c10_start_independence_witness :
    (idrInsert Nat cfg441 (idrNew Nat cfg441) 0 7).1.isSome =
      (idrInsert Nat cfg441 (idrNew Nat cfg441) 5 7).1.isSome :=
  c10_start_independence cfg441 (idrNew Nat cfg441) 7 0 5
    ⟨⟨2, by decide⟩, by decide, by decide, by decide, by decide, by decide, by decide⟩
    (wf_fresh Nat cfg441)

theorem keySlotId_lowBits (c : Cfg) (hv : c.Valid) {raw raw2 : Nat}
    (h : raw % 2 ^ c.usedBits = raw2 % 2 ^ c.usedBits) :
    keySlotId c raw = keySlotId c raw2 := by
  have hsb : c.slotBits ≤ c.usedBits := hv.sb_le_used
  rw [keySlotId_eq_mod c hv, keySlotId_eq_mod c hv,
    ← Nat.mod_mod_of_dvd raw (pow_dvd_pow 2 hsb),
    ← Nat.mod_mod_of_dvd raw2 (pow_dvd_pow 2 hsb), h]

theorem keyGenRaw_lowBits (c : Cfg) (hv : c.Valid) {raw raw2 : Nat}
    (h : raw % 2 ^ c.usedBits = raw2 % 2 ^ c.usedBits) :
    keyGenRaw c raw = keyGenRaw c raw2 := by
  have hmul : 2 ^ c.slotBits * 2 ^ c.genBits = 2 ^ c.usedBits := by
    rw [← pow_add]
    congr 1
    exact cfg_sb_add_gb hv
  rw [keyGenRaw_eq_div_mod c hv, keyGenRaw_eq_div_mod c hv,
    ← Nat.mod_mul_right_div_self, ← Nat.mod_mul_right_div_self, hmul, h]

theorem keyPageNo_lowBits (c : Cfg) (hv : c.Valid) {raw raw2 : Nat}
    (h : raw % 2 ^ c.usedBits = raw2 % 2 ^ c.usedBits) :
    keyPageNo c raw = keyPageNo c raw2 := by
  unfold keyPageNo
  rw [keySlotId_lowBits c hv h]

/-- C6: every key produced by `insert`/`vacant_entry` has all its
RESERVED_BITS high bits zero — reducing it modulo `2^USED_BITS` leaves it
unchanged — and `get`, `remove` and `contains` return identical results on
any two keys that agree on their low USED_BITS, i.e. differ only in
reserved bits. -/
theorem c6_reserved_bits {T : Type} (c : Cfg) (idr : IdrM T)
    (hv : c.Valid) (hwf : Wf T c idr) :
    (∀ s v k idr2, idrInsert T c idr s v = (some k, idr2) →
      k % 2 ^ c.usedBits = k ∧ k ≠ 0) ∧
    (∀ raw raw2, raw % 2 ^ c.usedBits = raw2 % 2 ^ c.usedBits →
      idrGetVal T c idr raw = idrGetVal T c idr raw2 ∧
      idrRemove T c idr raw = idrRemove T c idr raw2 ∧
      idrContains T c idr raw = idrContains T c idr raw2) := by
  constructor
  · intro s v k idr2 hins
    have hspec := idrInsert_spec hv hwf hins
    obtain ⟨_, _, _, hb1, hb2⟩ := hspec.2 k rfl
    exact ⟨hb1, hb2⟩
  · intro raw raw2 h
    have e1 := keyPageNo_lowBits c hv h
    have e2 := keySlotId_lowBits c hv h
    have e3 := keyGenRaw_lowBits c hv h
    have hget : idrGetVal T c idr raw = idrGetVal T c idr raw2 := by
      unfold idrGetVal pageGetVal SlotM.get
      rw [e1]
      simp only [e2, e3]
    refine ⟨hget, ?_, ?_⟩
    · unfold idrRemove pageRemove
      rw [e1]
      simp only [e2, e3]
    · unfold idrContains
      rw [hget]

/-- C6 witness: at a concrete state, a freshly inserted key keeps only used
bits, and the accessors agree on two keys differing only in reserved bits. -/
theorem c6_reserved_bits_witness :
    ((4 : Nat) % 2 ^ cfg441.usedBits = 4 ∧ (4 : Nat) ≠ 0) ∧
    (idrGetVal Nat cfg441 (idrNew Nat cfg441) 4 =
      idrGetVal Nat cfg441 (idrNew Nat cfg441) (4 + 2 ^ 32) ∧
    idrRemove Nat cfg441 (idrNew Nat cfg441) 4 =
      idrRemove Nat cfg441 (idrNew Nat cfg441) (4 + 2 ^ 32) ∧
    idrContains Nat cfg441 (idrNew Nat cfg441) 4 =
      idrContains Nat cfg441 (idrNew Nat cfg441) (4 + 2 ^ 32)) :=
  ⟨(c6_reserved_bits cfg441 (idrNew Nat cfg441)
      ⟨⟨2, by decide⟩, by decide, by decide, by decide, by decide, by decide,
        by decide⟩
      (wf_fresh Nat cfg441)).1 0 7 4
      (idrInsert Nat cfg441 (idrNew Nat cfg441) 0 7).2 (by decide),
   (c6_reserved_bits cfg441 (idrNew Nat cfg441)
      ⟨⟨2, by decide⟩, by decide, by decide, by decide, by decide, by decide,
        by decide⟩
      (wf_fresh Nat cfg441)).2 4 (4 + 2 ^ 32) (by decide)⟩

/-- C7: after `N` sequential successful inserts on a fresh IDR (within
capacity, so all succeed), iterating yields exactly `N` entries whose value
multiset equals the multiset of inserted values, and every yielded entry's
key is synthesized from `start_slot_id + offset` and the generation
observed in that slot. -/
theorem c7_iteration (T : Type) (c : Cfg) (hv : c.Valid)
    (inputs : List (Nat × T)) (hlen : inputs.length ≤ c.maxSlots)
    (n : Nat) (idrF : IdrM T)
    (h : insertMany T c (idrNew T c) inputs = (n, idrF)) :
    n = inputs.length ∧
    (idrIterEntries T c idrF).length = inputs.length ∧
    ((idrIterEntries T c idrF).map Prod.snd).Perm (inputs.map Prod.snd) ∧
    (∀ kv ∈ idrIterEntries T c idrF, ∃ pg l i s,
      pg ∈ idrF.pages ∧ pg.slots = some l ∧ l[i]? = some s ∧
      kv.1 = mkKeyRaw c (pg.startSlotId + i) s.generation) := by
  have hvac0 : vacantCount T (idrNew T c) = c.maxSlots := vacantCount_fresh T c
  obtain ⟨hn, hwfF, hocc⟩ := insertMany_occ hv inputs (idrNew T c) (wf_fresh T c)
    (by omega) n idrF h
  rw [occValues_fresh, List.append_nil] at hocc
  have hiter := idrIter_values hv hwfF
  have hperm : ((idrIterEntries T c idrF).map Prod.snd).Perm (inputs.map Prod.snd) := by
    rw [hiter]
    exact hocc
  refine ⟨hn, ?_, hperm, ?_⟩
  · have := hperm.length_eq
    simpa using this
  · intro kv hkv
    unfold idrIterEntries at hkv
    rw [List.mem_flatMap] at hkv
    obtain ⟨pg, hpgmem, hin⟩ := hkv
    have hpgmem2 : pg ∈ idrF.pages :=
      (List.takeWhile_sublist _).mem hpgmem
    unfold pageIterEntries at hin
    match hl : pg.slots with
    | none =>
      rw [hl] at hin
      simp at hin
    | some l =>
      rw [hl] at hin
      dsimp only at hin
      rw [List.mem_filterMap] at hin
      obtain ⟨i, _, hF⟩ := hin
      match hg : l[i]? with
      | none =>
        rw [hg] at hF
        cases hF
      | some s =>
        rw [hg] at hF
        dsimp only at hF
        match hget : SlotM.get c s (mkKeyRaw c (pg.startSlotId + i) s.generation) with
        | none =>
          rw [hget] at hF
          cases hF
        | some v =>
          rw [hget] at hF
          dsimp only at hF
          cases hF
          exact ⟨pg, l, i, s, hpgmem2, hl, hg, rfl⟩

/-- C7 witness: two inserted values are both yielded back by iteration at a
concrete configuration. -/
theorem c7_iteration_witness :
    (insertMany Nat cfg441 (idrNew Nat cfg441) [(0, 10), (0, 11)]).1 = 2 ∧
    (idrIterEntries Nat cfg441
      (insertMany Nat cfg441 (idrNew Nat cfg441) [(0, 10), (0, 11)]).2).length = 2 ∧
    ((idrIterEntries Nat cfg441
      (insertMany Nat cfg441 (idrNew Nat cfg441) [(0, 10), (0, 11)]).2).map
        Prod.snd).Perm ([(0, 10), (0, 11)].map Prod.snd) ∧
    (∀ kv ∈ idrIterEntries Nat cfg441
        (insertMany Nat cfg441 (idrNew Nat cfg441) [(0, 10), (0, 11)]).2,
      ∃ pg l i s,
        pg ∈ (insertMany Nat cfg441 (idrNew Nat cfg441) [(0, 10), (0, 11)]).2.pages ∧
        pg.slots = some l ∧ l[i]? = some s ∧
        kv.1 = mkKeyRaw cfg441 (pg.startSlotId + i) s.generation) :=
  c7_iteration Nat cfg441
    ⟨⟨2, by decide⟩, by decide, by decide, by decide, by decide, by decide, by decide⟩
    [(0, 10), (0, 11)] (by decide) _ _ rfl

theorem idrRemove_false_of_page {T : Type} {c : Cfg} {idr : IdrM T} {raw : Nat}
    {pg : PageM T} (hpg : idr.pages[keyPageNo c raw]? = some pg)
    (h : (pageRemove T c pg raw).1 = false) :
    idrRemove T c idr raw = (false, idr) := by
  rcases pageRemove_total c pg raw with htot | htot
  · unfold idrRemove
    rw [hpg]
    dsimp only
    rw [htot]
    dsimp only
    have hset := list_set_self _ _ _ hpg
    rw [hset]
  · rw [htot] at h
    cases h

/-- C5 (amended): a key whose decoding runs into any failure path — a page
number outside the page array, a page whose slot array is still null, a
missing or vacant slot, or a stored generation different from the key's —
makes `get` return none and `remove` return false, with the IDR state
unchanged and no panic (the accessors are total).  This is the claim
restricted to its own list of failure categories: an unissued key that
differs from an issued one only in reserved high bits does resolve
(see `c5_counterexample` and C6). -/
theorem c5_dead_keys {T : Type} (c : Cfg) (idr : IdrM T) (raw : Nat)
    (h : keyDeadB T c idr raw = true) :
    idrGetVal T c idr raw = none ∧ idrRemove T c idr raw = (false, idr) := by
  unfold keyDeadB at h
  match hpg : idr.pages[keyPageNo c raw]? with
  | none =>
    constructor
    · unfold idrGetVal
      rw [hpg]
    · unfold idrRemove
      rw [hpg]
  | some pg =>
    rw [hpg] at h
    dsimp only at h
    match hl : pg.slots with
    | none =>
      have hrm : (pageRemove T c pg raw).1 = false := by
        unfold pageRemove
        rw [hl]
      refine ⟨?_, idrRemove_false_of_page hpg hrm⟩
      unfold idrGetVal
      rw [hpg]
      dsimp only
      unfold pageGetVal
      rw [hl]
    | some l =>
      rw [hl] at h
      dsimp only at h
      match hs : l[wsub32 (keySlotId c raw) pg.startSlotId]? with
      | none =>
        have hrm : (pageRemove T c pg raw).1 = false := by
          unfold pageRemove
          rw [hl]
          dsimp only
          rw [hs]
        refine ⟨?_, idrRemove_false_of_page hpg hrm⟩
        unfold idrGetVal
        rw [hpg]
        dsimp only
        unfold pageGetVal
        rw [hl]
        dsimp only
        rw [hs]
      | some s =>
        rw [hs] at h
        dsimp only at h
        rw [Bool.or_eq_true] at h
        have hcase : s.data = none ∨ keyGenRaw c raw ≠ s.generation := by
          rcases h with h1 | h1
          · left
            exact Option.isNone_iff_eq_none.mp h1
          · right
            simpa using h1
        have hget : SlotM.get c s raw = none := by
          unfold SlotM.get
          rcases hcase with h1 | h1
          · by_cases hg : keyGenRaw c raw = s.generation
            · rw [if_pos hg, h1]
            · rw [if_neg hg]
          · rw [if_neg h1]
        have hrm : (pageRemove T c pg raw).1 = false := by
          unfold pageRemove
          rw [hl]
          dsimp only
          rw [hs]
          dsimp only
          rcases hcase with h1 | h1
          · by_cases hg : keyGenRaw c raw = s.generation
            · rw [if_pos hg, h1]
            · rw [if_neg hg]
          · rw [if_neg h1]
        refine ⟨?_, idrRemove_false_of_page hpg hrm⟩
        unfold idrGetVal
        rw [hpg]
        dsimp only
        unfold pageGetVal
        rw [hl]
        dsimp only
        rw [hs]
        dsimp only
        exact hget

/-- C5 witness: the forged integer key 12345 on a fresh default-configured
IDR: `get` returns none and `remove` returns false leaving the state
untouched. -/
theorem c5_dead_keys_witness :
    idrGetVal Nat cfgDefault (idrNew Nat cfgDefault) 12345 = none ∧
    idrRemove Nat cfgDefault (idrNew Nat cfgDefault) 12345 =
      (false, idrNew Nat cfgDefault) :=
  c5_dead_keys cfgDefault (idrNew Nat cfgDefault) 12345 (by decide)

/-- C5 counterexample to the claim as stated: on the reserved-bits test
configuration, one insert returns the key 4 and nothing else is ever
issued, yet the distinct non-zero 64-bit integer `4 + 2^32` (which the IDR
never issued: it differs from 4 in a reserved high bit) still resolves to
the stored value instead of none. -/
theorem c5_counterexample :
    (idrInsert Nat cfg441 (idrNew Nat cfg441) 0 7).1 = some 4 ∧
    (4 + 2 ^ 32 : Nat) ≠ 4 ∧ (4 + 2 ^ 32 : Nat) ≠ 0 ∧
    (4 + 2 ^ 32 : Nat) < 2 ^ 64 ∧
    idrGetVal Nat cfg441 (idrInsert Nat cfg441 (idrNew Nat cfg441) 0 7).2
      (4 + 2 ^ 32) = some 7 := by
  decide

theorem rmAbs_step (kg gNew : Nat) (s : RmSt) (w : Bool) :
    rmAbs kg (rmStep kg gNew s w) = rmStepB (decide (kg = gNew)) (rmAbs kg s) w := by
  cases w
  case false =>
    cases hpc : s.tb.pc
    case load => simp [rmStep, rmStepB, rmAbs, hpc]
    case check =>
      by_cases hg : kg = s.gen
      · cases hr : s.tb.reg <;> simp [rmStep, rmStepB, rmAbs, hpc, hg, hr]
      · simp [rmStep, rmStepB, rmAbs, hpc, hg]
    case cas =>
      by_cases hd : s.data = s.tb.reg
      · simp [rmStep, rmStepB, rmAbs, hpc, hd]
      · simp [rmStep, rmStepB, rmAbs, hpc, hd]
    case bump => simp [rmStep, rmStepB, rmAbs, hpc]
    case done => simp [rmStep, rmStepB, rmAbs, hpc]
  case true =>
    cases hpc : s.ta.pc
    case load => simp [rmStep, rmStepB, rmAbs, hpc]
    case check =>
      by_cases hg : kg = s.gen
      · cases hr : s.ta.reg <;> simp [rmStep, rmStepB, rmAbs, hpc, hg, hr]
      · simp [rmStep, rmStepB, rmAbs, hpc, hg]
    case cas =>
      by_cases hd : s.data = s.ta.reg
      · simp [rmStep, rmStepB, rmAbs, hpc, hd]
      · simp [rmStep, rmStepB, rmAbs, hpc, hd]
    case bump => simp [rmStep, rmStepB, rmAbs, hpc]
    case done => simp [rmStep, rmStepB, rmAbs, hpc]

theorem rmAbs_foldl (kg gNew : Nat) (sched : List Bool) (s : RmSt) :
    rmAbs kg (sched.foldl (rmStep kg gNew) s) =
      sched.foldl (rmStepB (decide (kg = gNew))) (rmAbs kg s) := by
  induction sched generalizing s with
  | nil => rfl
  | cons w rest ih =>
    rw [List.foldl_cons, List.foldl_cons, ih, rmAbs_step]

theorem rmRun_abs (kg gNew : Nat) (sched : List Bool) :
    rmAbs kg (rmRun kg gNew sched) = rmRunB (decide (kg = gNew)) sched := by
  unfold rmRun rmRunB
  rw [rmAbs_foldl]
  have hinit : rmAbs kg (rmInit kg) =
      ⟨some 0, true, ⟨.load, none, none⟩, ⟨.load, none, none⟩⟩ := by
    simp [rmAbs, rmInit]
  rw [hinit]

theorem rmExactlyOne_abs (kg : Nat) (s : RmSt) :
    rmExactlyOne s = rmExactlyOneB (rmAbs kg s) := rfl

/-- C9: two threads concurrently running `Slot::uninit` on the same slot
with the same matching key: under every interleaving of their atomic steps
(data load, generation check, compare-exchange, generation store), exactly
one of them returns true and the other returns false — the compare-exchange
on the data pointer arbitrates, for any configuration and any key
generation. -/
theorem c9_concurrent_removal (c : Cfg) (kg : Nat) :
    rmSchedules.all (fun sch => rmExactlyOne (rmRun kg (genInc c kg) sch)) = true := by
  have hall : ∀ b : Bool,
      rmSchedules.all (fun sch => rmExactlyOneB (rmRunB b sch)) = true := by decide
  rw [List.all_eq_true]
  intro sch hsch
  rw [rmExactlyOne_abs kg, rmRun_abs]
  exact List.all_eq_true.mp (hall (decide (kg = genInc c kg))) sch hsch
